import Mathlib

/-!
Verification of the route-stub generation pipeline implemented in
`scripts/generate-route-stubs.ts`.

The development shallow-embeds the generator: its path/string manipulation
(Node `path.posix.join` / `path.normalize`, the JavaScript regex replaces it
performs), its data model (expose entries, mount groups, the registry, the
per-package mount-prefix index), the three phases of `main` (registry build,
mount resolution over the host-first package order, emission of stub files
and the declaration artifact), a file-system state as an association list
from absolute path to file content, and a trace of the externally visible
actions of one run.  Packages are modelled with the results of the
file-system queries the generator performs baked in (`hasApp`, the
route files discovered under each existing internal directory), since the
generator only consumes those query results.
-/

namespace RouteStubs

/-- The single-quote character (code point 39), as a one-character string.
It appears in the generated stub and declaration file contents. -/
def sq : String := String.mk [Char.ofNat 39]

/-- Model of the JavaScript `s.replace(/\\/g, '/')`: every backslash
character is replaced by a forward slash. -/
def slashNorm (s : String) : String :=
  String.mk (s.data.map fun c => if c = '\\' then '/' else c)

/-- Model of the JavaScript `s.replace(/\.[^.]+$/, '')`: if the string ends
with a dot followed by a nonempty run of non-dot characters, that tail is
removed; otherwise the string is unchanged. -/
def stripExt (s : String) : String :=
  let r := s.data.reverse
  let ext := r.takeWhile (fun c => c ≠ '.')
  if ext.length ≠ 0 ∧ ext.length < r.length then
    String.mk ((r.drop (ext.length + 1)).reverse)
  else s

/-- Split a character list at every `'/'`.  Mirrors how Node's
`path.posix.normalize` tokenizes a path into segments (empty segments
included). -/
def splitSlash : List Char → List (List Char)
  | [] => [[]]
  | c :: rest =>
    if c = '/' then [] :: splitSlash rest
    else
      match splitSlash rest with
      | [] => [[c]]
      | g :: gs => (c :: g) :: gs

/-- Resolve `"."` and `".."` segments the way Node's `normalizeString` does:
empty and `"."` segments are dropped, `".."` pops the previous segment when
possible, and otherwise is kept only for relative paths (`up = true`).
`acc` is the reversed stack of segments produced so far. -/
def resolveSegs (up : Bool) : List (List Char) → List (List Char) → List (List Char)
  | acc, [] => acc.reverse
  | acc, s :: rest =>
    if s = [] ∨ s = ['.'] then resolveSegs up acc rest
    else if s = ['.', '.'] then
      match acc with
      | [] => resolveSegs up (if up then [s] else []) rest
      | a :: tl =>
        if a = ['.', '.'] then resolveSegs up (if up then s :: a :: tl else a :: tl) rest
        else resolveSegs up tl rest
    else resolveSegs up (s :: acc) rest

/-- Join segments with `'/'` separators (inverse of `splitSlash`). -/
def joinSegs : List (List Char) → List Char
  | [] => []
  | [s] => s
  | s :: rest => s ++ '/' :: joinSegs rest

/-- Reassemble a normalized path from resolved segments, restoring the
leading separator of an absolute path and a trailing separator, exactly as
Node `path.posix.normalize` does. -/
def normalizeData (isAbs trailing : Bool) (segs : List (List Char)) : List Char :=
  if joinSegs segs = [] then
    (if isAbs then ['/'] else if trailing then ['.', '/'] else ['.'])
  else
    (if isAbs then ['/'] else []) ++ joinSegs segs ++ (if trailing then ['/'] else [])

/-- Model of Node `path.posix.normalize`. -/
def posixNormalize (p : String) : String :=
  if p = "" then "."
  else
    String.mk (normalizeData (p.data.head? == some '/') (p.data.getLast? == some '/')
      (resolveSegs (!(p.data.head? == some '/')) [] (splitSlash p.data)))

/-- Model of Node `path.posix.join` applied to two arguments (empty
arguments are skipped; the result is normalized).  On the platform the
generator targets, `path.join` coincides with this function. -/
def posixJoin2 (a b : String) : String :=
  if a = "" then (if b = "" then "." else posixNormalize b)
  else if b = "" then posixNormalize a
  else posixNormalize (a ++ "/" ++ b)

example : posixJoin2 "a" "b" = "a/b" := by decide
example : posixJoin2 "" "b" = "b" := by decide
example : posixJoin2 "a" "." = "a" := by decide
example : posixJoin2 "." "b" = "b" := by decide
example : posixJoin2 "team/[teamId]/" "docs" = "team/[teamId]/docs" := by decide
example : posixJoin2 "team/[teamId]/" "" = "team/[teamId]/" := by decide
example : posixJoin2 "a//b" "c" = "a/b/c" := by decide
example : posixJoin2 "." "." = "." := by decide
example : posixNormalize "./" = "./" := by decide
example : stripExt "foo/bar/page.tsx" = "foo/bar/page" := by decide
example : stripExt "a.b.tsx" = "a.b" := by decide
example : stripExt "noext" = "noext" := by decide
example : stripExt "endsdot." = "endsdot." := by decide
example : slashNorm "a\\b/c" = "a/b/c" := by decide

/-! ## Data model -/

/-- One `exposeRoutes` entry of a package's `routes.config`. -/
structure ExposeEntry where
  name : String
  description : Option String := none
  internalPath : Option String := none
deriving DecidableEq, Repr

/-- One `mountRoutes` group of a package's `routes.config`.  `features` is
the `Object.entries` view of the registry-key-to-slug mapping, in property
order. -/
structure MountGroup where
  name : String
  baseRoute : Option String := none
  features : List (String × String)
deriving DecidableEq, Repr

/-- A package's `routes.config` module value. -/
structure RoutesConfig where
  exposeRoutes : Option (List ExposeEntry) := none
  mountRoutes : Option (List MountGroup) := none
deriving DecidableEq, Repr

/-- The result of attempting to load a package's `routes.config`:
no config file at all, a successfully imported config, or a file whose
import/parse throws (the thrown message is recorded). -/
inductive Manifest where
  | missing
  | ok (config : RoutesConfig)
  | malformed (err : String)
deriving DecidableEq, Repr

/-- Whether loading this manifest throws. -/
def Manifest.isMalformed : Manifest → Bool
  | .malformed _ => true
  | _ => false

/-- One discovered package, with the results of the file-system queries the
generator performs baked in: `name` is `pkgJson.name`, `hasApp` whether
`<pkgDir>/app` exists, and `appDirs` maps each internal path that exists
inside `app/` to the route files the glob discovers under it (paths
relative to that internal directory, forward-slash separated). -/
structure Package where
  pkgJsonPath : String
  name : Option String := none
  manifest : Manifest := .missing
  hasApp : Bool := false
  appDirs : List (String × List String) := []
deriving DecidableEq, Repr

/-- One registry value: provider package name, internal path, discovered
route files. -/
structure RegistryItem where
  srcPkg : String
  internalPath : String
  routeFiles : List String
  description : Option String := none
deriving DecidableEq, Repr

/-- The registry, a `Map` from registry key to item.  Association list in
`Map` insertion order (re-setting a key overwrites in place, exactly like
a JavaScript `Map`). -/
abbrev Registry := List (String × RegistryItem)

/-! ## Generic association-map operations (the JavaScript `Map` semantics) -/

/-- `map.set k v`: overwrite in place when the key is present, append
otherwise. -/
def assocSet {β : Type} (l : List (String × β)) (k : String) (v : β) :
    List (String × β) :=
  if (l.lookup k).isSome then l.map (fun e => if e.1 = k then (k, v) else e)
  else l ++ [(k, v)]

/-! ## Registry build (phase 1 of `main`) -/

/-- The `(key, item)` pair a single expose entry stores into the registry,
or `none` when the entry's internal directory does not exist (the entry is
silently skipped). -/
def entryWrite (p : Package) (e : ExposeEntry) : Option (String × RegistryItem) :=
  let internalPath := e.internalPath.getD "."
  match p.appDirs.lookup internalPath with
  | none => none
  | some files =>
    some (e.name,
      { srcPkg := p.name.getD "", internalPath := internalPath,
        routeFiles := files, description := e.description })

/-- All registry stores one package performs, in entry order.  A package
without an `app` directory, without a manifest, or without `exposeRoutes`
stores nothing. -/
def pkgWrites (p : Package) : List (String × RegistryItem) :=
  match p.manifest with
  | .ok cfg =>
    match cfg.exposeRoutes with
    | some entries => if p.hasApp then entries.filterMap (entryWrite p) else []
    | none => []
  | _ => []

/-- Scanning one package: perform its registry stores in order. -/
def scanPackage (reg : Registry) (p : Package) : Registry :=
  (pkgWrites p).foldl (fun r kv => assocSet r kv.1 kv.2) reg

/-- Externally visible actions of one run, in order. -/
inductive Ev where
  | wipe
  | manifestLoad (pkgJsonPath : String)
  | registryStore (key : String)
  | stubWrite (path : String)
  | declWrite
deriving DecidableEq, Repr

/-- The load/store actions scanning one package performs. -/
def pkgScanEvents (p : Package) : List Ev :=
  (match p.manifest with
   | .missing => []
   | _ => [Ev.manifestLoad p.pkgJsonPath]) ++
  (pkgWrites p).map (fun kv => Ev.registryStore kv.1)

/-- Phase 1: build the registry over all packages in discovery order,
recording the actions performed.  A malformed manifest aborts the whole
run (the throw propagates out of `main`). -/
def buildRegistryT : List Package → Registry → List Ev × Except String Registry
  | [], reg => ([], .ok reg)
  | p :: rest, reg =>
    match p.manifest with
    | .malformed err => ([Ev.manifestLoad p.pkgJsonPath], .error err)
    | _ =>
      let r := buildRegistryT rest (scanPackage reg p)
      (pkgScanEvents p ++ r.1, r.2)

/-! ## Package ordering for mount resolution -/

/-- The host test of the sort comparator: `a.includes(path.join('apps',
'web'))`, i.e. the literal substring `apps/web`. -/
def isHostPath (p : String) : Bool := decide ("apps/web".data <:+: p.data)

/-- Lexicographic comparison of character lists, the model of
`a.localeCompare(b) <= 0` (code-point collation). -/
def lexLe : List Char → List Char → Bool
  | [], _ => true
  | _ :: _, [] => false
  | a :: as, b :: bs => if a = b then lexLe as bs else decide (a < b)

/-- The model of `a.localeCompare(b) <= 0`. -/
def localeLe (a b : String) : Bool := lexLe a.data b.data

/-- `hostCmpLe a b` holds when the comparator in
`scripts/generate-route-stubs.ts` (host paths first, then
`localeCompare`) puts `a` no later than `b`. -/
def hostCmpLe (a b : String) : Bool :=
  if isHostPath a ≠ isHostPath b then isHostPath a else localeLe a b

/-- The comparator as a decidable relation (the sort below is the stable
sort JavaScript's `Array.prototype.sort` performs under a consistent
comparator). -/
def hostLeP (a b : String) : Prop := hostCmpLe a b = true

instance : DecidableRel hostLeP := fun a b => by unfold hostLeP; infer_instance

/-- The `sortedPkgJsonPaths` order: a stable sort of the discovered
package.json paths by the comparator. -/
def sortedPkgJsonPaths (paths : List String) : List String :=
  List.insertionSort hostLeP paths

/-- The comparator lifted to packages by their package.json path. -/
def pkgLeP (a b : Package) : Prop := hostLeP a.pkgJsonPath b.pkgJsonPath

instance : DecidableRel pkgLeP := fun a b => by unfold pkgLeP; infer_instance

/-- The same ordering applied to the packages themselves (the script sorts
the paths and reloads each package from its path). -/
def sortedPkgs (pkgs : List Package) : List Package :=
  List.insertionSort pkgLeP pkgs

/-! ## Mount resolution (phase 2 of `main`) -/

/-- One consumer mount produced by resolution (the script's
`consumerMounts` entries). -/
structure ConsumerMount where
  srcPkg : String
  routeFiles : List String
  mountPfx : String
deriving DecidableEq, Repr

/-- Resolver state: the mounts emitted so far, the `pkgMountPrefixes`
index (package name to the insertion-ordered, duplicate-free list of
prefixes at which it is mounted), and the diagnostics printed so far. -/
structure RState where
  mounts : List ConsumerMount := []
  index : List (String × List String) := []
  warnings : List String := []
deriving DecidableEq, Repr

/-- `pkgMountPrefixes` update: `if (!has) set(new Set()); get().add(v)`.
A `Set` keeps insertion order and ignores re-added elements. -/
def indexAdd (idx : List (String × List String)) (k v : String) :
    List (String × List String) :=
  match idx.lookup k with
  | none => idx ++ [(k, [v])]
  | some vs =>
    if v ∈ vs then idx
    else idx.map (fun e => if e.1 = k then (k, vs ++ [v]) else e)

/-- `baseSeg`: the group's `baseRoute` unless it is absent, empty or
`"."`. -/
def baseSegOf (b : Option String) : String :=
  match b with
  | none => ""
  | some s => if s ≠ "" ∧ s ≠ "." then s else ""

/-- The `mountPrefix` expression of the script: join consumer prefix,
base segment and slug, where an empty consumer prefix or base segment is
skipped rather than joined. -/
def mountPfxCalc (consumerPfx baseSeg slugStr : String) : String :=
  if consumerPfx ≠ "" then
    posixJoin2 consumerPfx
      (if baseSeg ≠ "" then posixJoin2 baseSeg slugStr else slugStr)
  else if baseSeg ≠ "" then posixJoin2 baseSeg slugStr
  else slugStr

/-- Re-base one registry route file under the registry item's internal
path: `path.posix.join(internalPath === '.' ? '' : internalPath, r)`. -/
def rebaseRouteFile (internalPath r : String) : String :=
  posixJoin2 (if internalPath = "." then "" else internalPath) r

/-- The route files of a resolved mount, re-based under the item's
internal path. -/
def mountRouteFiles (item : RegistryItem) : List String :=
  item.routeFiles.map (rebaseRouteFile item.internalPath)

/-- The diagnostic printed for a mount entry whose registry key is
unknown. -/
def unknownKeyWarning (key pkgName : String) : String :=
  "mountRoutes: route key " ++ sq ++ key ++ sq ++ " not found (package "
    ++ pkgName ++ ")"

/-- Append one resolved mount and record its prefix into the index. -/
def pushMount (item : RegistryItem) (st : RState) (mp : String) : RState :=
  { st with
    mounts := st.mounts ++ [⟨item.srcPkg, mountRouteFiles item, mp⟩],
    index := indexAdd st.index item.srcPkg mp }

/-- Process one `(registryKey, slug)` feature entry: an unknown key emits
a diagnostic and is skipped; a known key emits one mount per consumer
prefix. -/
def processFeature (reg : Registry) (pfxs : List String) (pkgName : String)
    (baseSeg : String) (st : RState) (kv : String × String) : RState :=
  match reg.lookup kv.1 with
  | none => { st with warnings := st.warnings ++ [unknownKeyWarning kv.1 pkgName] }
  | some item =>
    pfxs.foldl (fun st cp => pushMount item st (mountPfxCalc cp baseSeg kv.2)) st

/-- Process one mount group. -/
def processGroup (reg : Registry) (pfxs : List String) (pkgName : String)
    (st : RState) (grp : MountGroup) : RState :=
  grp.features.foldl (processFeature reg pfxs pkgName (baseSegOf grp.baseRoute)) st

/-- The mount groups of a package (`routesConfig?.mountRoutes ?? []`). -/
def mountGroupsOf (p : Package) : List MountGroup :=
  match p.manifest with
  | .ok cfg => cfg.mountRoutes.getD []
  | _ => []

/-- Process one package's mount groups against an explicit list of
consumer prefixes. -/
def processPackageWith (reg : Registry) (st : RState) (p : Package)
    (pfxs : List String) : RState :=
  (mountGroupsOf p).foldl (processGroup reg pfxs (p.name.getD "")) st

/-- Process one package during mount resolution: packages with no mount
groups are skipped; the consumer prefixes are the current index entry for
the package's name, defaulting to the single empty prefix when there is
none.  (The consumer-prefix list is the snapshot taken before the groups
are processed.) -/
def processPackage (reg : Registry) (st : RState) (p : Package) : RState :=
  match mountGroupsOf p with
  | [] => st
  | _ =>
    processPackageWith reg st p ((st.index.lookup (p.name.getD "")).getD [""])

/-- Phase 2: resolve mounts over the sorted packages, re-loading each
manifest (a malformed manifest would abort here as well). -/
def resolveT (reg : Registry) : List Package → RState → List Ev × Except String RState
  | [], st => ([], .ok st)
  | p :: rest, st =>
    match p.manifest with
    | .malformed err => ([Ev.manifestLoad p.pkgJsonPath], .error err)
    | .missing =>
      let r := resolveT reg rest (processPackage reg st p)
      (r.1, r.2)
    | .ok _ =>
      let r := resolveT reg rest (processPackage reg st p)
      (Ev.manifestLoad p.pkgJsonPath :: r.1, r.2)

/-! ## Emission (phases 3 to 5 of `main`) -/

/-- The generated-output root, relative to the repository root (the host
app of this repository's configuration is `apps/web`). -/
def GENERATED_ROOT : String := "apps/web/app/(feature-routes)"

/-- The declaration artifact path, relative to the repository root. -/
def DECLARATION_PATH : String := "apps/web/types/generated-route-modules.d.ts"

/-- The import specifier of a stub:
`<srcPkg>/app/<routeRel backslash-normalized, extension stripped>`. -/
def importSpecifier (srcPkg routeRel : String) : String :=
  srcPkg ++ "/app/" ++ stripExt (slashNorm routeRel)

/-- The exact content of one generated stub file. -/
def stubContent (srcPkg routeRel : String) : String :=
  "export \x7b default \x7d from " ++ sq ++ importSpecifier srcPkg routeRel ++ sq
    ++ ";\n" ++ "export * from " ++ sq ++ importSpecifier srcPkg routeRel ++ sq
    ++ ";\n"

/-- The destination of one stub relative to the generated root:
`path.join(destPrefix, routeRel).replace(/\\/g, '/')`. -/
def stubDestRel (destPfx routeRel : String) : String :=
  slashNorm (posixJoin2 destPfx routeRel)

/-- The absolute (repository-root relative) destination of one stub. -/
def stubDestPath (destPfx routeRel : String) : String :=
  posixJoin2 GENERATED_ROOT (stubDestRel destPfx routeRel)

/-- `writeStub`: the (path, content) pair written for one route file of
one resolved mount. -/
def writeStub (srcPkg routeRel destPfx : String) : String × String :=
  (stubDestPath destPfx routeRel, stubContent srcPkg routeRel)

/-- All stub writes of one run, in emission order (mounts in resolution
order, route files in registry order). -/
def stubWrites (mounts : List ConsumerMount) : List (String × String) :=
  mounts.flatMap (fun cm => cm.routeFiles.map (fun r => writeStub cm.srcPkg r cm.mountPfx))

/-- The distinct provider packages of the registry, in first-occurrence
order (the script's `providerPkgs` set). -/
def providerPkgs (reg : Registry) : List String :=
  reg.foldl (fun acc kv => if kv.2.srcPkg ∈ acc then acc else acc ++ [kv.2.srcPkg]) []

/-- The exact content of the generated declaration artifact. -/
def dtsContent (reg : Registry) : String :=
  "// AUTO-GENERATED by scripts/generate-route-stubs.ts — DO NOT EDIT\n\n"
    ++ "export interface RegistryEntry \x7b srcPkg: string; description?: string \x7d\n"
    ++ "export interface Registry \x7b\n"
    ++ String.join (reg.map (fun kv => "  " ++ sq ++ kv.1 ++ sq ++ ": RegistryEntry;\n"))
    ++ "\x7d\n\nexport type RegistryKey = keyof Registry;\n\n"
    ++ String.join ((providerPkgs reg).map
        (fun pkg => "declare module " ++ sq ++ pkg ++ "/app/*" ++ sq ++ ";\n"))

/-! ## File-system state -/

/-- A file system: association list from path to file content. -/
abbrev FS := List (String × String)

/-- Write (create or overwrite) one file. -/
def fsWrite (fs : FS) (p c : String) : FS := assocSet fs p c

/-- Is `p` inside the directory `root` (or the path `root` itself)?
The prefix test is on the character lists of the two paths. -/
def isUnder (root p : String) : Bool := (root ++ "/").data.isPrefixOf p.data || root = p

/-- `fs.rm(root, { recursive: true, force: true })`. -/
def fsWipe (fs : FS) (root : String) : FS :=
  fs.filter (fun e => !isUnder root e.1)

/-! ## One full generation run -/

/-- The outcome of one run: the completion result, the resulting file
system, and the trace of actions performed (in order). -/
structure RunResult where
  result : Except String Unit
  fs : FS
  trace : List Ev
deriving Repr

/-- One full generation pass of `main`, over the packages discovered by
the glob (in discovery order) and the file system as it stands:
wipe the generated root, build the registry, resolve mounts host-first,
emit the stubs, emit the declaration artifact.  A malformed manifest
aborts the run where it is first loaded. -/
def mainRun (pkgs : List Package) (fs0 : FS) : RunResult :=
  let fs1 := fsWipe fs0 GENERATED_ROOT
  match buildRegistryT pkgs [] with
  | (evB, .error e) => ⟨.error e, fs1, Ev.wipe :: evB⟩
  | (evB, .ok reg) =>
    match resolveT reg (sortedPkgs pkgs) {} with
    | (evR, .error e) => ⟨.error e, fs1, Ev.wipe :: (evB ++ evR)⟩
    | (evR, .ok st) =>
      let ws := stubWrites st.mounts
      let fs2 := ws.foldl (fun fs pc => fsWrite fs pc.1 pc.2) fs1
      let fs3 := fsWrite fs2 DECLARATION_PATH (dtsContent reg)
      ⟨.ok (), fs3,
        Ev.wipe :: (evB ++ evR ++ ws.map (fun pc => Ev.stubWrite pc.1) ++ [Ev.declWrite])⟩

/-! ## Lemmas about the association-map operations -/

theorem lookup_cons_eqn {β : Type} (k a1 : String) (a2 : β) (t : List (String × β)) :
    List.lookup k ((a1, a2) :: t) = if k = a1 then some a2 else List.lookup k t := by
  rw [List.lookup_cons]
  by_cases h : k = a1
  · simp [h]
  · have hb : (k == a1) = false := beq_false_of_ne h
    simp [hb, h]

theorem lookup_map_reval_self {β : Type} (l : List (String × β)) (k : String) (v : β)
    (h : (l.lookup k).isSome) :
    ((l.map (fun e => if e.1 = k then (k, v) else e)).lookup k) = some v := by
  induction l with
  | nil => simp [List.lookup] at h
  | cons a t ih =>
    obtain ⟨a1, a2⟩ := a
    by_cases hk : a1 = k
    · subst hk
      simp only [List.map_cons, if_pos rfl]
      rw [lookup_cons_eqn]
      simp
    · simp only [List.map_cons]
      rw [if_neg (by simpa using hk)]
      rw [lookup_cons_eqn]
      rw [if_neg (fun hq => hk hq.symm)]
      rw [lookup_cons_eqn] at h
      rw [if_neg (fun hq => hk hq.symm)] at h
      exact ih h

theorem lookup_map_reval_ne {β : Type} (l : List (String × β)) (k k' : String) (v : β)
    (h : k' ≠ k) :
    ((l.map (fun e => if e.1 = k then (k, v) else e)).lookup k') = l.lookup k' := by
  induction l with
  | nil => simp
  | cons a t ih =>
    obtain ⟨a1, a2⟩ := a
    by_cases hk : a1 = k
    · subst hk
      simp only [List.map_cons]
      rw [if_pos trivial]
      rw [lookup_cons_eqn, lookup_cons_eqn]
      rw [if_neg h, if_neg h]
      exact ih
    · simp only [List.map_cons]
      rw [show (if (a1, a2).1 = k then (k, v) else (a1, a2)) = (a1, a2) from by simp [hk]]
      rw [lookup_cons_eqn, lookup_cons_eqn]
      by_cases he : k' = a1
      · simp [he]
      · rw [if_neg he, if_neg he]
        exact ih

theorem lookup_assocSet_self {β : Type} (l : List (String × β)) (k : String) (v : β) :
    (assocSet l k v).lookup k = some v := by
  unfold assocSet
  by_cases h : (l.lookup k).isSome
  · rw [if_pos h]
    exact lookup_map_reval_self l k v h
  · rw [if_neg h]
    rw [List.lookup_append]
    have hnone : l.lookup k = none := by
      cases hl : l.lookup k with
      | none => rfl
      | some w => rw [hl] at h; simp at h
    rw [hnone]
    rw [show List.lookup k [(k, v)] = some v from by rw [lookup_cons_eqn]; simp]
    rfl

theorem lookup_assocSet_ne {β : Type} (l : List (String × β)) (k k' : String) (v : β)
    (h : k' ≠ k) :
    (assocSet l k v).lookup k' = l.lookup k' := by
  unfold assocSet
  by_cases hs : (l.lookup k).isSome
  · rw [if_pos hs]
    exact lookup_map_reval_ne l k k' v h
  · rw [if_neg hs]
    rw [List.lookup_append]
    rw [show List.lookup k' [(k, v)] = none from by rw [lookup_cons_eqn]; simp [h]]
    cases hl : l.lookup k' with
    | none => rfl
    | some w => rfl

/-- The value the last store to key `k` in the write list `ws` wrote, if
any. -/
def lastWrite {β : Type} (ws : List (String × β)) (k : String) : Option β :=
  ((ws.filter (fun kv => kv.1 = k)).map (·.2)).getLast?

theorem getLast?_cons_or {α : Type} (a : α) (l : List α) :
    (a :: l).getLast? = l.getLast?.or (some a) := by
  induction l generalizing a with
  | nil => simp
  | cons b t ih =>
    rw [List.getLast?_cons_cons, ih b]
    cases ht : (b :: t).getLast? with
    | none =>
      exfalso
      have : b :: t ≠ [] := by simp
      rw [List.getLast?_eq_getLast _ this] at ht
      simp at ht
    | some w =>
      rw [ih b] at ht
      simp [ht]

theorem lookup_foldl_assocSet {β : Type} (ws : List (String × β))
    (r0 : List (String × β)) (k : String) :
    ((ws.foldl (fun r kv => assocSet r kv.1 kv.2) r0).lookup k)
      = (lastWrite ws k).or (r0.lookup k) := by
  induction ws generalizing r0 with
  | nil => simp [lastWrite]
  | cons a rest ih =>
    simp only [List.foldl_cons]
    rw [ih]
    by_cases hk : a.1 = k
    · have h1 : (assocSet r0 a.1 a.2).lookup k = some a.2 := by
        rw [hk] at *; exact lookup_assocSet_self r0 k a.2
      rw [h1]
      unfold lastWrite
      have : (a :: rest).filter (fun kv => kv.1 = k) = a :: rest.filter (fun kv => kv.1 = k) := by
        simp [List.filter, hk]
      rw [this, List.map_cons, getLast?_cons_or]
      rw [Option.or_assoc]
      simp [lastWrite]
    · have h1 : (assocSet r0 a.1 a.2).lookup k = r0.lookup k :=
        lookup_assocSet_ne r0 a.1 k a.2 (fun hq => hk hq.symm)
      rw [h1]
      unfold lastWrite
      have : (a :: rest).filter (fun kv => kv.1 = k) = rest.filter (fun kv => kv.1 = k) := by
        simp [List.filter, hk]
      rw [this]

theorem lookup_filter_key {β : Type} (l : List (String × β)) (q : String → Bool)
    (k : String) :
    ((l.filter (fun e => q e.1)).lookup k) = if q k then l.lookup k else none := by
  induction l with
  | nil => simp
  | cons a t ih =>
    obtain ⟨a1, a2⟩ := a
    by_cases hq : q a1
    · rw [show List.filter (fun e => q e.1) ((a1, a2) :: t)
          = (a1, a2) :: List.filter (fun e => q e.1) t from by simp [List.filter_cons, hq]]
      rw [lookup_cons_eqn, lookup_cons_eqn]
      by_cases hk : k = a1
      · subst hk
        simp [hq]
      · rw [if_neg hk, if_neg hk, ih]
    · rw [show List.filter (fun e => q e.1) ((a1, a2) :: t)
          = List.filter (fun e => q e.1) t from by
        rw [List.filter_cons, if_neg (by simpa using hq)]]
      rw [ih, lookup_cons_eqn]
      by_cases hqk : q k
      · rw [if_pos hqk, if_pos hqk]
        rw [if_neg (fun he => hq (by rw [← he]; exact hqk))]
      · rw [if_neg hqk, if_neg hqk]

/-! ## Lemmas about the path primitives -/

theorem splitSlash_ne_nil (l : List Char) : splitSlash l ≠ [] := by
  cases l with
  | nil => simp [splitSlash]
  | cons c rest =>
    by_cases h : c = '/'
    · simp [splitSlash, h]
    · simp only [splitSlash, if_neg h]
      cases hs : splitSlash rest <;> simp

theorem splitSlash_eq_single_nil (l : List Char) (h : splitSlash l = [[]]) : l = [] := by
  cases l with
  | nil => rfl
  | cons c rest =>
    exfalso
    by_cases hc : c = '/'
    · simp only [splitSlash, if_pos hc] at h
      have := splitSlash_ne_nil rest
      simp at h
      exact this h
    · simp only [splitSlash, if_neg hc] at h
      cases hs : splitSlash rest with
      | nil => rw [hs] at h; simp at h
      | cons g gs => rw [hs] at h; simp at h

theorem joinSegs_cons_of_ne_nil (s : List Char) (S : List (List Char)) (h : S ≠ []) :
    joinSegs (s :: S) = s ++ '/' :: joinSegs S := by
  cases S with
  | nil => exact absurd rfl h
  | cons t ts => rfl

theorem joinSegs_splitSlash (l : List Char) : joinSegs (splitSlash l) = l := by
  induction l with
  | nil => rfl
  | cons c rest ih =>
    by_cases hc : c = '/'
    · simp only [splitSlash, if_pos hc]
      rw [joinSegs_cons_of_ne_nil [] _ (splitSlash_ne_nil rest), ih, hc]
      rfl
    · simp only [splitSlash, if_neg hc]
      cases hs : splitSlash rest with
      | nil => exact absurd hs (splitSlash_ne_nil rest)
      | cons g gs =>
        rw [hs] at ih
        cases gs with
        | nil => simpa [joinSegs] using congrArg (c :: ·) ih
        | cons g2 gs2 =>
          rw [joinSegs_cons_of_ne_nil (c :: g) _ (by simp)]
          rw [joinSegs_cons_of_ne_nil g _ (by simp)] at ih
          simpa using congrArg (c :: ·) ih

theorem splitSlash_cons (c : Char) (rest : List Char) :
    ∃ g gs, splitSlash rest = g :: gs ∧
      splitSlash (c :: rest) = (if c = '/' then [] :: g :: gs else (c :: g) :: gs) := by
  cases hs : splitSlash rest with
  | nil => exact absurd hs (splitSlash_ne_nil rest)
  | cons g gs =>
    refine ⟨g, gs, rfl, ?_⟩
    by_cases hc : c = '/'
    · simp only [splitSlash, if_pos hc, hs]
    · simp only [splitSlash, if_neg hc, hs]

theorem splitSlash_append_slash (a b : List Char) :
    splitSlash (a ++ '/' :: b) = splitSlash a ++ splitSlash b := by
  induction a with
  | nil => simp [splitSlash]
  | cons c a ih =>
    obtain ⟨g, gs, hs, he⟩ := splitSlash_cons c a
    obtain ⟨g2, gs2, hs2, he2⟩ := splitSlash_cons c (a ++ '/' :: b)
    rw [ih, hs, List.cons_append] at hs2
    injection hs2 with hg hgs
    subst hg
    subst hgs
    rw [List.cons_append, he2, he]
    by_cases hc : c = '/'
    · rw [if_pos hc, if_pos hc]; simp
    · rw [if_neg hc, if_neg hc]; simp

/-- A path segment with no special meaning to `normalizeString`. -/
def plainSeg (s : List Char) : Prop := s ≠ [] ∧ s ≠ ['.'] ∧ s ≠ ['.', '.']

instance (s : List Char) : Decidable (plainSeg s) := by
  unfold plainSeg; infer_instance

theorem resolveSegs_plain (up : Bool) (segs : List (List Char))
    (h : ∀ s ∈ segs, plainSeg s) :
    ∀ acc, resolveSegs up acc segs = acc.reverse ++ segs := by
  induction segs with
  | nil => intro acc; simp [resolveSegs]
  | cons s rest ih =>
    intro acc
    obtain ⟨h1, h2, h3⟩ := h s (by simp)
    simp only [resolveSegs]
    rw [if_neg (by rintro (hc | hc) <;> [exact h1 hc; exact h2 hc])]
    rw [if_neg h3]
    rw [ih (fun t ht => h t (by simp [ht])) (s :: acc)]
    simp

theorem splitSlash_getLast_slash (l : List Char) (h : l.getLast? = some '/') :
    (splitSlash l).getLast? = some [] := by
  induction l with
  | nil => simp at h
  | cons c rest ih =>
    cases rest with
    | nil =>
      simp at h
      subst h
      decide
    | cons d t =>
      rw [List.getLast?_cons_cons] at h
      have ihr := ih h
      obtain ⟨g, gs, hs, he⟩ := splitSlash_cons c (d :: t)
      rw [hs] at ihr
      rw [he]
      by_cases hc : c = '/'
      · rw [if_pos hc, List.getLast?_cons_cons]
        exact ihr
      · rw [if_neg hc]
        cases gs with
        | nil =>
          exfalso
          simp at ihr
          have h1 : splitSlash (d :: t) = [[]] := by rw [hs, ihr]
          have := splitSlash_eq_single_nil _ h1
          simp at this
        | cons g2 gs2 =>
          rw [List.getLast?_cons_cons] at ihr ⊢
          exact ihr

theorem splitSlash_head_slash (l : List Char) (h : l.head? = some '/') :
    [] ∈ splitSlash l := by
  cases l with
  | nil => simp at h
  | cons c rest =>
    simp at h
    simp [splitSlash, h]

/-- A clean relative path: nonempty, every `'/'`-separated segment plain,
and no backslash characters. -/
def CleanPath (s : String) : Prop :=
  s ≠ "" ∧ (∀ seg ∈ splitSlash s.data, plainSeg seg) ∧ '\\' ∉ s.data

instance (s : String) : Decidable (CleanPath s) := by
  unfold CleanPath; infer_instance

theorem data_eq_nil_iff (s : String) : s.data = [] ↔ s = "" := by
  constructor
  · intro h; exact String.ext h
  · intro h; rw [h]

theorem mk_data (s : String) : String.mk s.data = s := String.ext rfl

theorem posixNormalize_clean (s : String) (h : CleanPath s) : posixNormalize s = s := by
  obtain ⟨hne, hsegs, _⟩ := h
  have hdata : s.data ≠ [] := fun hc => hne ((data_eq_nil_iff s).mp hc)
  have hAbs : (s.data.head? == some '/') = false := by
    rw [beq_eq_false_iff_ne]
    intro hc
    exact (hsegs [] (splitSlash_head_slash s.data hc)).1 rfl
  have hTrail : (s.data.getLast? == some '/') = false := by
    rw [beq_eq_false_iff_ne]
    intro hc
    have hmem : ([] : List Char) ∈ splitSlash s.data :=
      List.mem_of_mem_getLast? (splitSlash_getLast_slash s.data hc)
    exact (hsegs [] hmem).1 rfl
  unfold posixNormalize
  rw [if_neg hne, hAbs, hTrail]
  rw [resolveSegs_plain _ _ hsegs []]
  unfold normalizeData
  simp only [List.reverse_nil, List.nil_append]
  rw [joinSegs_splitSlash]
  rw [if_neg hdata]
  simp only [Bool.false_eq_true, if_false, List.nil_append, List.append_nil, mk_data]

theorem data_append_slash (a b : String) :
    (a ++ "/" ++ b).data = a.data ++ '/' :: b.data := by
  rw [String.data_append, String.data_append]
  simp

theorem CleanPath.append_slash {a b : String} (ha : CleanPath a) (hb : CleanPath b) :
    CleanPath (a ++ "/" ++ b) := by
  obtain ⟨ha1, ha2, ha3⟩ := ha
  obtain ⟨hb1, hb2, hb3⟩ := hb
  refine ⟨?_, ?_, ?_⟩
  · intro hc
    have : (a ++ "/" ++ b).data = [] := by rw [hc]
    rw [data_append_slash] at this
    simp at this
  · intro seg hseg
    rw [data_append_slash, splitSlash_append_slash] at hseg
    rcases List.mem_append.mp hseg with h | h
    · exact ha2 seg h
    · exact hb2 seg h
  · rw [data_append_slash]
    intro hc
    rcases List.mem_append.mp hc with h | h
    · exact ha3 h
    · rcases List.mem_cons.mp h with h | h
      · exact absurd h (by decide)
      · exact hb3 h

theorem posixJoin2_clean (a b : String) (ha : CleanPath a) (hb : CleanPath b) :
    posixJoin2 a b = a ++ "/" ++ b := by
  unfold posixJoin2
  rw [if_neg ha.1, if_neg hb.1]
  exact posixNormalize_clean _ (CleanPath.append_slash ha hb)

theorem slashNorm_append (a b : String) :
    slashNorm (a ++ b) = slashNorm a ++ slashNorm b := by
  unfold slashNorm
  apply String.ext
  simp [String.data_append]

theorem slashNorm_id (s : String) (h : '\\' ∉ s.data) : slashNorm s = s := by
  unfold slashNorm
  apply String.ext
  show s.data.map _ = s.data
  have hcg : s.data.map (fun c => if c = '\\' then '/' else c) = s.data.map id :=
    List.map_congr_left (fun c hc => if_neg (fun he => h (by rw [← he]; exact hc)))
  rw [hcg, List.map_id]

theorem takeWhile_append_stop (p : Char → Bool) (l1 : List Char) (c : Char)
    (l2 : List Char) (h1 : ∀ x ∈ l1, p x) (h2 : p c = false) :
    (l1 ++ c :: l2).takeWhile p = l1 := by
  induction l1 with
  | nil => simp [List.takeWhile_cons, h2]
  | cons x t ih =>
    have hx : p x := h1 x (by simp)
    rw [List.cons_append, List.takeWhile_cons, if_pos hx,
      ih (fun y hy => h1 y (by simp [hy]))]

theorem stripExt_append_ext (s ext : String) (h1 : ext ≠ "") (h2 : '.' ∉ ext.data) :
    stripExt (s ++ "." ++ ext) = s := by
  have hrev : (s ++ "." ++ ext).data.reverse = ext.data.reverse ++ '.' :: s.data.reverse := by
    rw [show (s ++ "." ++ ext).data = s.data ++ '.' :: ext.data from by
      rw [String.data_append, String.data_append]; simp]
    simp
  have htake : ((s ++ "." ++ ext).data.reverse.takeWhile (fun c => c ≠ '.'))
      = ext.data.reverse := by
    rw [hrev]
    apply takeWhile_append_stop
    · intro x hx
      simp only [ne_eq, decide_eq_true_eq]
      intro he
      exact h2 (he ▸ List.mem_reverse.mp hx)
    · simp
  have hextlen : ext.data.length ≠ 0 := by
    intro hc
    exact h1 ((data_eq_nil_iff ext).mp (List.length_eq_zero.mp hc))
  simp only [stripExt, htake]
  rw [if_pos ?side]
  case side =>
    constructor
    · simpa using hextlen
    · rw [hrev]
      simp only [List.length_reverse, List.length_append, List.length_cons]
      omega
  rw [hrev]
  rw [show ext.data.reverse ++ '.' :: s.data.reverse
      = (ext.data.reverse ++ ['.']) ++ s.data.reverse from by simp]
  rw [List.drop_left' (by simp [List.length_append]),
    List.reverse_reverse, mk_data]

/-! ## Elision of `"."` and empty segments by the join (for claim C8) -/

theorem resolveSegs_append_skip (up : Bool) (s : List Char) (hs : s = [] ∨ s = ['.'])
    (xs : List (List Char)) : ∀ acc, resolveSegs up acc (xs ++ [s]) = resolveSegs up acc xs := by
  induction xs with
  | nil =>
    intro acc
    rcases hs with h | h <;> subst h <;> simp [resolveSegs]
  | cons x rest ih =>
    intro acc
    rw [List.cons_append]
    by_cases h1 : x = [] ∨ x = ['.']
    · simp only [resolveSegs]
      rw [if_pos h1, if_pos h1]
      exact ih acc
    · by_cases h2 : x = ['.', '.']
      · cases acc with
        | nil =>
          simp only [resolveSegs]
          rw [if_neg h1, if_neg h1, if_pos h2, if_pos h2]
          exact ih _
        | cons a tl =>
          simp only [resolveSegs]
          rw [if_neg h1, if_neg h1, if_pos h2, if_pos h2]
          by_cases h3 : a = ['.', '.']
          · rw [if_pos h3, if_pos h3]; exact ih _
          · rw [if_neg h3, if_neg h3]; exact ih _
      · simp only [resolveSegs]
        rw [if_neg h1, if_neg h1, if_neg h2, if_neg h2]
        exact ih _

theorem splitSlash_dotslash (l : List Char) :
    splitSlash ('.' :: '/' :: l) = ['.'] :: splitSlash l := by
  have h1 : splitSlash ('/' :: l) = [] :: splitSlash l := by
    simp [splitSlash]
  obtain ⟨g, gs, hs, he⟩ := splitSlash_cons '.' ('/' :: l)
  rw [h1] at hs
  injection hs with hg hgs
  rw [he, if_neg (show ('.' : Char) ≠ '/' from by decide), ← hg, ← hgs]

/-- Appending a `"/."` to a nonempty path with no trailing slash does not
change its normalization. -/
theorem posixNormalize_append_dot (a : String) (ha : a ≠ "")
    (ht : a.data.getLast? ≠ some '/') :
    posixNormalize (a ++ "/" ++ ".") = posixNormalize a := by
  have hdata : (a ++ "/" ++ ".").data = a.data ++ '/' :: ['.'] := data_append_slash a "."
  have hne : a.data ≠ [] := fun hc => ha ((data_eq_nil_iff a).mp hc)
  have hne2 : (a ++ "/" ++ ".") ≠ "" := by
    intro hc
    have : (a ++ "/" ++ ".").data = [] := by rw [hc]
    rw [hdata] at this
    simp at this
  unfold posixNormalize
  rw [if_neg hne2, if_neg ha, hdata]
  rw [List.head?_append_of_ne_nil _ hne]
  rw [show (a.data ++ ['/', '.']).getLast? = (['/', '.'] : List Char).getLast? from
    List.getLast?_append_of_ne_nil _ (by simp)]
  rw [show (['/', '.'] : List Char).getLast? = some '.' from rfl]
  rw [show ((some '.' : Option Char) == some '/') = false from by decide]
  rw [show (a.data.getLast? == some '/') = false from by
    cases hl : a.data.getLast? with
    | none => rfl
    | some c =>
      rw [hl] at ht
      simp only [Option.some.injEq, beq_eq_false_iff_ne, ne_eq]
      intro hc
      exact ht (by rw [hc])]
  rw [splitSlash_append_slash]
  rw [show splitSlash ['.'] = [['.']] from by decide]
  rw [resolveSegs_append_skip _ ['.'] (Or.inr rfl)]

/-- Prepending `"./"` to a nonempty relative path does not change its
normalization. -/
theorem posixNormalize_dotslash (r : String) (hr : r ≠ "")
    (hh : r.data.head? ≠ some '/') :
    posixNormalize ("." ++ "/" ++ r) = posixNormalize r := by
  have hdata : ("." ++ "/" ++ r).data = '.' :: '/' :: r.data := by
    rw [data_append_slash]; rfl
  have hne : r.data ≠ [] := fun hc => hr ((data_eq_nil_iff r).mp hc)
  have hne2 : ("." ++ "/" ++ r) ≠ "" := by
    intro hc
    have : ("." ++ "/" ++ r).data = [] := by rw [hc]
    rw [hdata] at this
    simp at this
  unfold posixNormalize
  rw [if_neg hne2, if_neg hr, hdata]
  rw [show (('.' :: '/' :: r.data).head? == some '/') = false from by simp]
  rw [show (('.' :: '/' :: r.data).getLast? = r.data.getLast?) from by
    rw [List.getLast?_cons_cons]
    cases hd : r.data with
    | nil => exact absurd hd hne
    | cons c t => rw [List.getLast?_cons_cons]]
  rw [show (r.data.head? == some '/') = false from by
    cases hl : r.data.head? with
    | none => rfl
    | some c =>
      rw [hl] at hh
      simp only [Option.some.injEq, beq_eq_false_iff_ne, ne_eq]
      intro hc
      exact hh (by rw [hc])]
  rw [splitSlash_dotslash]
  rw [show ∀ up acc, resolveSegs up acc (['.'] :: splitSlash r.data)
      = resolveSegs up acc (splitSlash r.data) from by
    intro up acc; simp [resolveSegs]]

/-! ## Monotonicity of mount resolution -/

/-- `RLe st st'`: every mount and every recorded index prefix of `st` is
still present in `st'`. -/
def RLe (st st' : RState) : Prop :=
  (∀ cm ∈ st.mounts, cm ∈ st'.mounts) ∧
  (∀ k v, v ∈ (st.index.lookup k).getD [] → v ∈ (st'.index.lookup k).getD [])

theorem RLe.rfl (st : RState) : RLe st st := ⟨fun _ h => h, fun _ _ h => h⟩

theorem RLe.trans {a b c : RState} (h1 : RLe a b) (h2 : RLe b c) : RLe a c :=
  ⟨fun cm h => h2.1 cm (h1.1 cm h), fun k v h => h2.2 k v (h1.2 k v h)⟩

theorem indexAdd_eqn_none (idx : List (String × List String)) (k v : String)
    (hk : idx.lookup k = none) : indexAdd idx k v = idx ++ [(k, [v])] := by
  unfold indexAdd
  rw [hk]

theorem indexAdd_eqn_some (idx : List (String × List String)) (k v : String)
    (vs : List String) (hk : idx.lookup k = some vs) :
    indexAdd idx k v
      = if v ∈ vs then idx else idx.map (fun e => if e.1 = k then (k, vs ++ [v]) else e) := by
  unfold indexAdd
  rw [hk]

theorem indexAdd_le (idx : List (String × List String)) (k v : String) :
    ∀ k' v', v' ∈ ((idx.lookup k').getD []) →
      v' ∈ (((indexAdd idx k v).lookup k').getD []) := by
  intro k' v' hv
  cases hk : idx.lookup k with
  | none =>
    rw [indexAdd_eqn_none idx k v hk, List.lookup_append]
    cases hk' : idx.lookup k' with
    | none => rw [hk'] at hv; simp at hv
    | some vs =>
      rw [hk'] at hv
      simpa using hv
  | some vs =>
    rw [indexAdd_eqn_some idx k v vs hk]
    by_cases hmem : v ∈ vs
    · rw [if_pos hmem]; exact hv
    · rw [if_neg hmem]
      by_cases hkk : k' = k
      · subst hkk
        rw [lookup_map_reval_self idx k' (vs ++ [v]) (by rw [hk]; rfl)]
        rw [hk] at hv
        simp only [Option.getD_some] at hv ⊢
        exact List.mem_append_left _ hv
      · rw [lookup_map_reval_ne idx k k' (vs ++ [v]) hkk]
        exact hv

theorem indexAdd_mem (idx : List (String × List String)) (k v : String) :
    v ∈ (((indexAdd idx k v).lookup k).getD []) := by
  cases hk : idx.lookup k with
  | none =>
    rw [indexAdd_eqn_none idx k v hk, List.lookup_append, hk]
    rw [show List.lookup k [(k, [v])] = some [v] from by rw [lookup_cons_eqn]; simp]
    simp
  | some vs =>
    rw [indexAdd_eqn_some idx k v vs hk]
    by_cases hmem : v ∈ vs
    · rw [if_pos hmem, hk]
      simpa using hmem
    · rw [if_neg hmem]
      rw [lookup_map_reval_self idx k (vs ++ [v]) (by rw [hk]; rfl)]
      simp

theorem pushMount_le (item : RegistryItem) (st : RState) (mp : String) :
    RLe st (pushMount item st mp) := by
  constructor
  · intro cm h
    exact List.mem_append_left _ h
  · intro k v h
    exact indexAdd_le st.index item.srcPkg mp k v h

theorem pushMount_mem (item : RegistryItem) (st : RState) (mp : String) :
    (⟨item.srcPkg, mountRouteFiles item, mp⟩ : ConsumerMount) ∈ (pushMount item st mp).mounts
      ∧ mp ∈ (((pushMount item st mp).index.lookup item.srcPkg).getD []) := by
  constructor
  · simp [pushMount]
  · exact indexAdd_mem st.index item.srcPkg mp

theorem foldl_rle {α : Type} (f : RState → α → RState)
    (hf : ∀ st x, RLe st (f st x)) :
    ∀ (l : List α) (st : RState), RLe st (l.foldl f st) := by
  intro l
  induction l with
  | nil => intro st; exact RLe.rfl st
  | cons x rest ih =>
    intro st
    exact RLe.trans (hf st x) (ih (f st x))

theorem processFeature_le (reg : Registry) (pfxs : List String) (pkgName baseSeg : String)
    (st : RState) (kv : String × String) :
    RLe st (processFeature reg pfxs pkgName baseSeg st kv) := by
  unfold processFeature
  cases reg.lookup kv.1 with
  | none => exact ⟨fun _ h => h, fun _ _ h => h⟩
  | some item =>
    exact foldl_rle _ (fun st cp => pushMount_le item st (mountPfxCalc cp baseSeg kv.2)) pfxs st

theorem processGroup_le (reg : Registry) (pfxs : List String) (pkgName : String)
    (st : RState) (grp : MountGroup) :
    RLe st (processGroup reg pfxs pkgName st grp) :=
  foldl_rle _ (fun st kv => processFeature_le reg pfxs pkgName (baseSegOf grp.baseRoute) st kv)
    grp.features st

theorem foldl_pres {α : Type} (f : RState → α → RState) (P : RState → Prop)
    (hpres : ∀ st x, P st → P (f st x)) :
    ∀ (l : List α) (st : RState), P st → P (l.foldl f st) := by
  intro l
  induction l with
  | nil => intro st h; exact h
  | cons x rest ih => intro st h; exact ih (f st x) (hpres st x h)

theorem foldl_establish {α : Type} (f : RState → α → RState) (P : RState → Prop)
    (hpres : ∀ st x, P st → P (f st x)) (a : α) (hest : ∀ st, P (f st a)) :
    ∀ (l : List α) (st : RState), a ∈ l → P (l.foldl f st) := by
  intro l
  induction l with
  | nil => intro st h; simp at h
  | cons x rest ih =>
    intro st hmem
    rcases List.mem_cons.mp hmem with h | h
    · subst h
      rw [List.foldl_cons]
      exact foldl_pres f P hpres rest (f st a) (hest st)
    · exact ih (f st x) h

/-! ## Claim C1: stub emission -/

theorem slashNorm_recognized_ext (ext : String) (hext : ext ∈ ["js", "jsx", "ts", "tsx"]) :
    slashNorm ext = ext := by
  fin_cases hext <;> decide

theorem recognized_ext_ne (ext : String) (hext : ext ∈ ["js", "jsx", "ts", "tsx"]) :
    ext ≠ "" ∧ '.' ∉ ext.data := by
  fin_cases hext <;> exact ⟨by decide, by decide⟩

theorem importSpecifier_roundtrip (pkg base ext : String)
    (hext : ext ∈ ["js", "jsx", "ts", "tsx"]) (hbase : '\\' ∉ base.data) :
    importSpecifier pkg (base ++ "." ++ ext) = pkg ++ "/app/" ++ base := by
  unfold importSpecifier
  rw [slashNorm_append, slashNorm_append, slashNorm_recognized_ext ext hext]
  rw [slashNorm_id base hbase]
  rw [show slashNorm "." = "." from by decide]
  rw [stripExt_append_ext base ext (recognized_ext_ne ext hext).1 (recognized_ext_ne ext hext).2]

theorem GENERATED_ROOT_clean : CleanPath GENERATED_ROOT := by decide

/-- C1: For every resolved mount and each of its route files, the Stub
Emitter performs a write at `outputRoot/mountPrefix/routeFile` whose
content is exactly the two lines re-exporting the default and all named
bindings from the import specifier, and the import specifier of a source
file `<base>.<ext>` with a recognized extension equals
`<srcPkg>/app/<base>` (extension stripped, separators forward-slash
normalized). -/
theorem c1_stub_writes (mounts : List ConsumerMount) (cm : ConsumerMount)
    (hcm : cm ∈ mounts) (r : String) (hr : r ∈ cm.routeFiles)
    (hc1 : CleanPath cm.mountPfx) (hc2 : CleanPath r)
    (base ext : String) (hext : ext ∈ ["js", "jsx", "ts", "tsx"])
    (hbase : '\\' ∉ base.data) :
    writeStub cm.srcPkg r cm.mountPfx ∈ stubWrites mounts
    ∧ (writeStub cm.srcPkg r cm.mountPfx).1
        = GENERATED_ROOT ++ "/" ++ cm.mountPfx ++ "/" ++ r
    ∧ (writeStub cm.srcPkg r cm.mountPfx).2
        = "export \x7b default \x7d from " ++ sq ++ importSpecifier cm.srcPkg r ++ sq ++ ";\n"
          ++ "export * from " ++ sq ++ importSpecifier cm.srcPkg r ++ sq ++ ";\n"
    ∧ importSpecifier cm.srcPkg (base ++ "." ++ ext) = cm.srcPkg ++ "/app/" ++ base := by
  refine ⟨?_, ?_, rfl, importSpecifier_roundtrip cm.srcPkg base ext hext hbase⟩
  · unfold stubWrites
    exact List.mem_flatMap_of_mem hcm (List.mem_map.mpr ⟨r, hr, rfl⟩)
  · show stubDestPath cm.mountPfx r = _
    unfold stubDestPath stubDestRel
    rw [posixJoin2_clean _ _ hc1 hc2]
    rw [slashNorm_id _ (CleanPath.append_slash hc1 hc2).2.2]
    rw [posixJoin2_clean _ _ GENERATED_ROOT_clean (CleanPath.append_slash hc1 hc2)]
    simp [String.append_assoc]

/-- Witness for C1 at a concrete mount and route file. -/
theorem c1_stub_writes_witness :
    writeStub "docs" "foo/page.tsx" "docs" ∈
        stubWrites [⟨"docs", ["foo/page.tsx"], "docs"⟩]
    ∧ (writeStub "docs" "foo/page.tsx" "docs").1
        = GENERATED_ROOT ++ "/" ++ "docs" ++ "/" ++ "foo/page.tsx"
    ∧ (writeStub "docs" "foo/page.tsx" "docs").2
        = "export \x7b default \x7d from " ++ sq ++ importSpecifier "docs" "foo/page.tsx" ++ sq ++ ";\n"
          ++ "export * from " ++ sq ++ importSpecifier "docs" "foo/page.tsx" ++ sq ++ ";\n"
    ∧ importSpecifier "docs" ("foo/page" ++ "." ++ "tsx") = "docs" ++ "/app/" ++ "foo/page" :=
  c1_stub_writes [⟨"docs", ["foo/page.tsx"], "docs"⟩] ⟨"docs", ["foo/page.tsx"], "docs"⟩
    (by decide) "foo/page.tsx" (by decide) (by decide) (by decide)
    "foo/page" "tsx" (by decide) (by decide)

/-! ## Claim C7: last registry write wins, without error -/

/-- The registry items stored under key `k` during the scan, in scan
order (entries whose internal directory is missing store nothing). -/
def writtenItems (pkgs : List Package) (k : String) : List RegistryItem :=
  (((pkgs.flatMap pkgWrites).filter (fun kv => kv.1 = k)).map (fun kv => kv.2))

theorem buildRegistryT_ok (pkgs : List Package) (reg : Registry)
    (h : ∀ p ∈ pkgs, p.manifest.isMalformed = false) :
    (buildRegistryT pkgs reg).2
      = Except.ok ((pkgs.flatMap pkgWrites).foldl (fun r kv => assocSet r kv.1 kv.2) reg) := by
  induction pkgs generalizing reg with
  | nil => rfl
  | cons p rest ih =>
    cases hm : p.manifest with
    | malformed err =>
      exfalso
      have hf := h p (by simp)
      rw [hm] at hf
      simp [Manifest.isMalformed] at hf
    | missing =>
      simp only [buildRegistryT, hm]
      rw [ih (scanPackage reg p) (fun q hq => h q (by simp [hq]))]
      unfold scanPackage
      rw [List.flatMap_cons, List.foldl_append]
    | ok cfg =>
      simp only [buildRegistryT, hm]
      rw [ih (scanPackage reg p) (fun q hq => h q (by simp [hq]))]
      unfold scanPackage
      rw [List.flatMap_cons, List.foldl_append]

/-- C7: duplicate registry keys raise no error; the registry maps every
key to the item of the last scan that stored it (and hence a key stored
by exactly one entry keeps that entry's item). -/
theorem c7_registry_last_wins (pkgs : List Package)
    (h : ∀ p ∈ pkgs, p.manifest.isMalformed = false) (k : String) :
    ∃ reg, (buildRegistryT pkgs []).2 = Except.ok reg
      ∧ reg.lookup k = (writtenItems pkgs k).getLast? := by
  refine ⟨_, buildRegistryT_ok pkgs [] h, ?_⟩
  rw [lookup_foldl_assocSet]
  rw [show (List.lookup k ([] : Registry)) = none from rfl]
  rw [Option.or_none]
  rfl

/-- Witness for C7: two packages expose the same key; the later item wins
and the earlier one is silently overwritten. -/
theorem c7_registry_last_wins_witness :
    ∃ reg,
      (buildRegistryT
        [{ pkgJsonPath := "features/a/package.json", name := some "a",
           manifest := .ok { exposeRoutes := some [{ name := "dup" }] },
           hasApp := true, appDirs := [(".", ["page.tsx"])] },
         { pkgJsonPath := "features/b/package.json", name := some "b",
           manifest := .ok { exposeRoutes := some [{ name := "dup" }] },
           hasApp := true, appDirs := [(".", ["layout.tsx"])] }] []).2 = Except.ok reg
      ∧ reg.lookup "dup"
          = (writtenItems
              [{ pkgJsonPath := "features/a/package.json", name := some "a",
                 manifest := .ok { exposeRoutes := some [{ name := "dup" }] },
                 hasApp := true, appDirs := [(".", ["page.tsx"])] },
               { pkgJsonPath := "features/b/package.json", name := some "b",
                 manifest := .ok { exposeRoutes := some [{ name := "dup" }] },
                 hasApp := true, appDirs := [(".", ["layout.tsx"])] }] "dup").getLast? :=
  c7_registry_last_wins _ (by decide) "dup"

/-! ## Claim C3: package ordering for resolution -/

theorem lexLe_trans (a : List Char) : ∀ b c, lexLe a b = true → lexLe b c = true →
    lexLe a c = true := by
  induction a with
  | nil => intro b c h1 h2; rfl
  | cons x xs ih =>
    intro b c h1 h2
    cases b with
    | nil => simp [lexLe] at h1
    | cons y ys =>
      cases c with
      | nil => simp [lexLe] at h2
      | cons z zs =>
        simp only [lexLe] at h1 h2 ⊢
        by_cases hxy : x = y
        · rw [if_pos hxy] at h1
          by_cases hyz : y = z
          · rw [if_pos hyz] at h2
            rw [if_pos (hxy.trans hyz)]
            exact ih ys zs h1 h2
          · rw [if_neg hyz] at h2
            simp only [decide_eq_true_eq] at h2
            rw [if_neg (fun hc => hyz (by rw [← hxy, hc])), decide_eq_true_eq]
            rw [hxy]
            exact h2
        · rw [if_neg hxy] at h1
          simp only [decide_eq_true_eq] at h1
          by_cases hyz : y = z
          · rw [if_neg (fun hc => hxy (by rw [hc, hyz])), decide_eq_true_eq]
            rw [← hyz]
            exact h1
          · rw [if_neg hyz] at h2
            simp only [decide_eq_true_eq] at h2
            have hxz : x < z := lt_trans h1 h2
            rw [if_neg (ne_of_lt hxz), decide_eq_true_eq]
            exact hxz

theorem lexLe_total (a : List Char) : ∀ b, lexLe a b = true ∨ lexLe b a = true := by
  induction a with
  | nil => intro b; exact Or.inl rfl
  | cons x xs ih =>
    intro b
    cases b with
    | nil => exact Or.inr rfl
    | cons y ys =>
      simp only [lexLe]
      by_cases hxy : x = y
      · rw [if_pos hxy, if_pos hxy.symm]
        exact ih ys
      · rw [if_neg hxy, if_neg (fun hc => hxy hc.symm)]
        rcases lt_or_gt_of_ne (show x ≠ y from hxy) with h | h
        · exact Or.inl (by simpa using h)
        · exact Or.inr (by simpa using h)

theorem localeLe_trans (a b c : String)
    (h1 : localeLe a b = true) (h2 : localeLe b c = true) : localeLe a c = true :=
  lexLe_trans a.data b.data c.data h1 h2

theorem localeLe_total (a b : String) : localeLe a b = true ∨ localeLe b a = true :=
  lexLe_total a.data b.data

theorem hostCmpLe_eqn (a b : String) :
    hostCmpLe a b = if isHostPath a ≠ isHostPath b then isHostPath a else localeLe a b := rfl

theorem hostCmpLe_trans (a b c : String)
    (h1 : hostCmpLe a b = true) (h2 : hostCmpLe b c = true) : hostCmpLe a c = true := by
  rw [hostCmpLe_eqn] at h1 h2 ⊢
  cases ha : isHostPath a <;> cases hb : isHostPath b <;> cases hc : isHostPath c <;>
      simp_all <;>
      try exact localeLe_trans a b c h1 h2

theorem hostCmpLe_total (a b : String) : (hostCmpLe a b || hostCmpLe b a) = true := by
  rw [hostCmpLe_eqn, hostCmpLe_eqn]
  cases ha : isHostPath a <;> cases hb : isHostPath b <;> simp_all <;>
    exact localeLe_total a b

instance : IsTotal String hostLeP :=
  ⟨fun a b => by
    unfold hostLeP
    rcases Bool.or_eq_true_iff.mp (hostCmpLe_total a b) with h | h
    · exact Or.inl h
    · exact Or.inr h⟩

instance : IsTrans String hostLeP :=
  ⟨fun a b c h1 h2 => hostCmpLe_trans a b c h1 h2⟩

/-- C3: resolution order is a permutation of the discovered package.json
paths (nothing dropped or duplicated), the unique host path comes first,
and all the other paths appear in lexical order. -/
theorem c3_resolution_order (l : List String) (p : String) (hp : p ∈ l)
    (hhost : isHostPath p = true)
    (huniq : ∀ q ∈ l, isHostPath q = true → q = p) :
    (sortedPkgJsonPaths l).Perm l
    ∧ ((sortedPkgJsonPaths l).filter (fun x => !isHostPath x)).Pairwise
        (fun a b => localeLe a b = true)
    ∧ (sortedPkgJsonPaths l).head? = some p := by
  have hperm : (sortedPkgJsonPaths l).Perm l := List.perm_insertionSort hostLeP l
  have hsorted : List.Pairwise (fun a b => hostCmpLe a b = true) (sortedPkgJsonPaths l) :=
    List.sorted_insertionSort hostLeP l
  refine ⟨hperm, ?_, ?_⟩
  · have hsub : ((sortedPkgJsonPaths l).filter (fun x => !isHostPath x)).Sublist
        (sortedPkgJsonPaths l) := List.filter_sublist (sortedPkgJsonPaths l)
    have hpw := List.Pairwise.sublist hsub hsorted
    refine List.Pairwise.imp_of_mem ?_ hpw
    intro a b hma hmb hab
    have hna : isHostPath a = false := by
      have := (List.mem_filter.mp hma).2
      simpa using this
    have hnb : isHostPath b = false := by
      have := (List.mem_filter.mp hmb).2
      simpa using this
    unfold hostCmpLe at hab
    rw [if_neg (by rw [hna, hnb]; exact fun hc => hc rfl)] at hab
    simpa using hab
  · have hpmem : p ∈ sortedPkgJsonPaths l := hperm.mem_iff.mpr hp
    cases hms : sortedPkgJsonPaths l with
    | nil => rw [hms] at hpmem; simp at hpmem
    | cons q rest =>
      rw [hms] at hpmem hsorted
      rcases List.mem_cons.mp hpmem with he | hrest
      · rw [he]; rfl
      · have hq : q ∈ l := hperm.mem_iff.mp (by rw [hms]; simp)
        by_cases hqh : isHostPath q = true
        · rw [← huniq q hq hqh]; rfl
        · exfalso
          have hcmp := (List.pairwise_cons.mp hsorted).1 p hrest
          unfold hostCmpLe at hcmp
          rw [if_pos (by rw [hhost]; intro hc; exact hqh hc)] at hcmp
          exact hqh hcmp

/-- Witness for C3 at a concrete path list. -/
theorem c3_resolution_order_witness :
    (sortedPkgJsonPaths
        ["features/docs/package.json", "apps/web/package.json", "features/teams/package.json"]).Perm
        ["features/docs/package.json", "apps/web/package.json", "features/teams/package.json"]
    ∧ ((sortedPkgJsonPaths
        ["features/docs/package.json", "apps/web/package.json", "features/teams/package.json"]).filter
          (fun x => !isHostPath x)).Pairwise (fun a b => localeLe a b = true)
    ∧ (sortedPkgJsonPaths
        ["features/docs/package.json", "apps/web/package.json", "features/teams/package.json"]).head?
        = some "apps/web/package.json" :=
  c3_resolution_order _ "apps/web/package.json" (by decide) (by decide) (by decide)

/-! ## Claims C2 and C4: consumer prefixes and transitive composition -/

theorem CleanPath.ne_dot {s : String} (h : CleanPath s) : s ≠ "." := by
  intro hc
  subst hc
  have hpl := h.2.1 ['.'] (by decide)
  exact hpl.2.1 rfl

theorem mountPfxCalc_clean (p customPath s : String)
    (hcp : CleanPath p) (hcc : CleanPath customPath) (hcs : CleanPath s) :
    mountPfxCalc p customPath s = p ++ "/" ++ customPath ++ "/" ++ s := by
  unfold mountPfxCalc
  rw [if_pos hcp.1, if_pos hcc.1]
  rw [posixJoin2_clean _ _ hcc hcs]
  rw [posixJoin2_clean _ _ hcp (CleanPath.append_slash hcc hcs)]
  simp [String.append_assoc]

theorem processPackage_eqn (reg : Registry) (st : RState) (p : Package)
    (hne : mountGroupsOf p ≠ []) :
    processPackage reg st p
      = processPackageWith reg st p ((st.index.lookup (p.name.getD "")).getD [""]) := by
  unfold processPackage
  cases hmg : mountGroupsOf p with
  | nil => exact absurd hmg hne
  | cons g gs => rfl

/-- The target property used for C2 and C4: the given mount has been
emitted and its prefix recorded for the provider. -/
def MountRecorded (itemB : RegistryItem) (mp : String) (st : RState) : Prop :=
  (⟨itemB.srcPkg, mountRouteFiles itemB, mp⟩ : ConsumerMount) ∈ st.mounts
    ∧ mp ∈ ((st.index.lookup itemB.srcPkg).getD [])

theorem MountRecorded.mono {itemB : RegistryItem} {mp : String} {st st' : RState}
    (hle : RLe st st') (h : MountRecorded itemB mp st) : MountRecorded itemB mp st' :=
  ⟨hle.1 _ h.1, hle.2 _ _ h.2⟩

theorem processFeature_records (reg : Registry) (pfxs : List String)
    (pkgName baseSeg : String) (keyB s p : String) (itemB : RegistryItem)
    (hreg : reg.lookup keyB = some itemB) (hp : p ∈ pfxs) (st : RState) :
    MountRecorded itemB (mountPfxCalc p baseSeg s)
      (processFeature reg pfxs pkgName baseSeg st (keyB, s)) := by
  unfold processFeature
  rw [hreg]
  refine foldl_establish _ (MountRecorded itemB (mountPfxCalc p baseSeg s))
    (fun st cp h => h.mono (pushMount_le itemB st (mountPfxCalc cp baseSeg s))) p
    (fun st => ?_) pfxs st hp
  exact ⟨(pushMount_mem itemB st (mountPfxCalc p baseSeg s)).1,
    (pushMount_mem itemB st (mountPfxCalc p baseSeg s)).2⟩

theorem processPackageWith_records (reg : Registry) (st : RState) (pkg : Package)
    (pfxs : List String) (grp : MountGroup) (keyB s p : String) (itemB : RegistryItem)
    (hgrp : grp ∈ mountGroupsOf pkg) (hfeat : (keyB, s) ∈ grp.features)
    (hreg : reg.lookup keyB = some itemB) (hp : p ∈ pfxs) :
    MountRecorded itemB (mountPfxCalc p (baseSegOf grp.baseRoute) s)
      (processPackageWith reg st pkg pfxs) := by
  unfold processPackageWith
  refine foldl_establish _ _
    (fun st g h => h.mono (processGroup_le reg pfxs (pkg.name.getD "") st g)) grp
    (fun st => ?_) (mountGroupsOf pkg) st hgrp
  unfold processGroup
  refine foldl_establish _ _
    (fun st kv h =>
      h.mono (processFeature_le reg pfxs (pkg.name.getD "") (baseSegOf grp.baseRoute) st kv))
    (keyB, s) (fun st => ?_) grp.features st hfeat
  exact processFeature_records reg pfxs (pkg.name.getD "") (baseSegOf grp.baseRoute)
    keyB s p itemB hreg hp st

/-- C2: when a prefix `p` for consumer `A` is already recorded in the
index, processing `A`'s mount of provider key `keyB` (base route
`customPath`, slug `s`) emits a resolved mount for the provider's package
at `p/customPath/s` and records that prefix into the provider's index
entry for packages processed later. -/
theorem c2_transitive_prefixes (reg : Registry) (st : RState) (A : Package)
    (p customPath s keyB : String) (itemB : RegistryItem) (grp : MountGroup)
    (hp : p ∈ ((st.index.lookup (A.name.getD "")).getD [""]))
    (hgrp : grp ∈ mountGroupsOf A)
    (hbase : grp.baseRoute = some customPath)
    (hfeat : (keyB, s) ∈ grp.features)
    (hreg : reg.lookup keyB = some itemB)
    (hcp : CleanPath p) (hcc : CleanPath customPath) (hcs : CleanPath s) :
    (⟨itemB.srcPkg, mountRouteFiles itemB, p ++ "/" ++ customPath ++ "/" ++ s⟩ : ConsumerMount)
        ∈ (processPackage reg st A).mounts
    ∧ p ++ "/" ++ customPath ++ "/" ++ s
        ∈ (((processPackage reg st A).index.lookup itemB.srcPkg).getD []) := by
  have hne : mountGroupsOf A ≠ [] := fun hc => by rw [hc] at hgrp; simp at hgrp
  rw [processPackage_eqn reg st A hne]
  have hbs : baseSegOf grp.baseRoute = customPath := by
    rw [hbase]
    show (if customPath ≠ "" ∧ customPath ≠ "." then customPath else "") = customPath
    rw [if_pos ⟨hcc.1, hcc.ne_dot⟩]
  have hrec := processPackageWith_records reg st A
    ((st.index.lookup (A.name.getD "")).getD [""]) grp keyB s p itemB hgrp hfeat hreg hp
  rw [hbs, mountPfxCalc_clean p customPath s hcp hcc hcs] at hrec
  exact ⟨hrec.1, hrec.2⟩

/-- Witness for C2: the host has recorded prefix `"a"` for package `A`;
`A` mounts provider key `kb` under base route `custom` with slug `s`. -/
theorem c2_transitive_prefixes_witness :
    (⟨"pkgB", mountRouteFiles ⟨"pkgB", ".", ["page.tsx"], none⟩,
        "a" ++ "/" ++ "custom" ++ "/" ++ "s"⟩ : ConsumerMount)
        ∈ (processPackage [("kb", ⟨"pkgB", ".", ["page.tsx"], none⟩)]
            { index := [("A", ["a"])] }
            { pkgJsonPath := "features/a/package.json", name := some "A",
              manifest := .ok { mountRoutes := some [
                { name := "G", baseRoute := some "custom",
                  features := [("kb", "s")] }] } }).mounts
    ∧ "a" ++ "/" ++ "custom" ++ "/" ++ "s"
        ∈ (((processPackage [("kb", ⟨"pkgB", ".", ["page.tsx"], none⟩)]
            { index := [("A", ["a"])] }
            { pkgJsonPath := "features/a/package.json", name := some "A",
              manifest := .ok { mountRoutes := some [
                { name := "G", baseRoute := some "custom",
                  features := [("kb", "s")] }] } }).index.lookup "pkgB").getD []) :=
  c2_transitive_prefixes _ _ _ "a" "custom" "s" "kb" ⟨"pkgB", ".", ["page.tsx"], none⟩
    { name := "G", baseRoute := some "custom", features := [("kb", "s")] }
    (by decide) (by decide) rfl (by decide) rfl (by decide) (by decide) (by decide)

/-- Counterexample to C4 as stated: a non-host package with `mountRoutes`
and no prior index entry still receives the default single empty consumer
prefix and emits a resolved mount of its own. -/
theorem c4_counterexample :
    isHostPath "features/x/package.json" = false
    ∧ (({} : RState).index.lookup "x") = none
    ∧ ((resolveT [("k", ⟨"prov", ".", ["page.tsx"], none⟩)]
          [{ pkgJsonPath := "features/x/package.json", name := some "x",
             manifest := .ok { mountRoutes := some [
               { name := "G", baseRoute := some ".", features := [("k", "slug")] }] } }]
          {}).2.toOption.map (fun st => st.mounts))
        = some [⟨"prov", ["page.tsx"], "slug"⟩] := by
  refine ⟨by decide, rfl, by decide⟩

/-- C4 as amended: the consumer prefixes of a package are exactly the
current index entry for its name, and the default single empty prefix is
applied to any package without a prior entry, host or not; such a package
with mount groups emits mounts computed from the empty consumer prefix. -/
theorem c4_default_prefix_any_package (reg : Registry) (st : RState) (pkg : Package)
    (grp : MountGroup) (keyB s : String) (itemB : RegistryItem)
    (hnone : st.index.lookup (pkg.name.getD "") = none)
    (hgrp : grp ∈ mountGroupsOf pkg)
    (hfeat : (keyB, s) ∈ grp.features)
    (hreg : reg.lookup keyB = some itemB) :
    processPackage reg st pkg = processPackageWith reg st pkg [""]
    ∧ (⟨itemB.srcPkg, mountRouteFiles itemB,
        mountPfxCalc "" (baseSegOf grp.baseRoute) s⟩ : ConsumerMount)
        ∈ (processPackage reg st pkg).mounts := by
  have hne : mountGroupsOf pkg ≠ [] := fun hc => by rw [hc] at hgrp; simp at hgrp
  have heq : processPackage reg st pkg = processPackageWith reg st pkg [""] := by
    rw [processPackage_eqn reg st pkg hne, hnone]
    rfl
  refine ⟨heq, ?_⟩
  rw [heq]
  exact (processPackageWith_records reg st pkg [""] grp keyB s "" itemB hgrp hfeat hreg
    (by simp)).1

/-- Witness for the amended C4 at a concrete non-host package. -/
theorem c4_default_prefix_any_package_witness :
    processPackage [("k", ⟨"prov", ".", ["page.tsx"], none⟩)] {}
        { pkgJsonPath := "features/x/package.json", name := some "x",
          manifest := .ok { mountRoutes := some [
            { name := "G", baseRoute := some ".", features := [("k", "slug")] }] } }
      = processPackageWith [("k", ⟨"prov", ".", ["page.tsx"], none⟩)] {}
        { pkgJsonPath := "features/x/package.json", name := some "x",
          manifest := .ok { mountRoutes := some [
            { name := "G", baseRoute := some ".", features := [("k", "slug")] }] } } [""]
    ∧ (⟨"prov", mountRouteFiles ⟨"prov", ".", ["page.tsx"], none⟩,
        mountPfxCalc "" (baseSegOf (some ".")) "slug"⟩ : ConsumerMount)
        ∈ (processPackage [("k", ⟨"prov", ".", ["page.tsx"], none⟩)] {}
            { pkgJsonPath := "features/x/package.json", name := some "x",
              manifest := .ok { mountRoutes := some [
                { name := "G", baseRoute := some ".", features := [("k", "slug")] }] } }).mounts :=
  c4_default_prefix_any_package _ _ _
    { name := "G", baseRoute := some ".", features := [("k", "slug")] }
    "k" "slug" ⟨"prov", ".", ["page.tsx"], none⟩ rfl (by decide) (by decide) rfl

/-! ## Claim C6: unknown registry keys are skipped without harm -/

/-- Two resolver states that agree on mounts and index (the data later
phases consume); diagnostics may differ. -/
def StEquiv (st st' : RState) : Prop := st.mounts = st'.mounts ∧ st.index = st'.index

theorem StEquiv.refl (st : RState) : StEquiv st st := ⟨Eq.refl st.mounts, Eq.refl st.index⟩

theorem pushMount_equiv (item : RegistryItem) (mp : String) {st st' : RState}
    (h : StEquiv st st') : StEquiv (pushMount item st mp) (pushMount item st' mp) := by
  unfold pushMount
  exact ⟨by rw [h.1], by rw [h.2]⟩

theorem foldl_equiv {α : Type} (f : RState → α → RState)
    (hf : ∀ (st st' : RState) (x : α), StEquiv st st' → StEquiv (f st x) (f st' x)) :
    ∀ (l : List α) (st st' : RState), StEquiv st st' →
      StEquiv (l.foldl f st) (l.foldl f st') := by
  intro l
  induction l with
  | nil => intro st st' h; exact h
  | cons x rest ih => intro st st' h; exact ih (f st x) (f st' x) (hf st st' x h)

theorem processFeature_equiv (reg : Registry) (pfxs : List String)
    (pkgName baseSeg : String) (kv : String × String) {st st' : RState}
    (h : StEquiv st st') :
    StEquiv (processFeature reg pfxs pkgName baseSeg st kv)
      (processFeature reg pfxs pkgName baseSeg st' kv) := by
  unfold processFeature
  cases reg.lookup kv.1 with
  | none => exact ⟨h.1, h.2⟩
  | some item =>
    exact foldl_equiv _ (fun st st' cp hh => pushMount_equiv item (mountPfxCalc cp baseSeg kv.2) hh)
      pfxs st st' h

theorem processGroup_equiv (reg : Registry) (pfxs : List String) (pkgName : String)
    (grp : MountGroup) {st st' : RState} (h : StEquiv st st') :
    StEquiv (processGroup reg pfxs pkgName st grp)
      (processGroup reg pfxs pkgName st' grp) :=
  foldl_equiv _ (fun st st' kv hh =>
    processFeature_equiv reg pfxs pkgName (baseSegOf grp.baseRoute) kv hh)
    grp.features st st' h

theorem processPackage_equiv (reg : Registry) (p : Package) {st st' : RState}
    (h : StEquiv st st') :
    StEquiv (processPackage reg st p) (processPackage reg st' p) := by
  unfold processPackage
  cases mountGroupsOf p with
  | nil => exact h
  | cons g gs =>
    unfold processPackageWith
    rw [show st'.index = st.index from h.2.symm]
    exact foldl_equiv _ (fun a b grp hh =>
      processGroup_equiv reg _ (p.name.getD "") grp hh) _ st st' h

/-- Relation between the outcomes of two resolutions: both succeed with
states agreeing on mounts and index, or both fail with the same error. -/
def exceptEquiv : Except String RState → Except String RState → Prop
  | .ok a, .ok b => StEquiv a b
  | .error e, .error f => e = f
  | _, _ => False

theorem resolveT_equiv (reg : Registry) (pkgs : List Package) {st st' : RState}
    (h : StEquiv st st') :
    (resolveT reg pkgs st).1 = (resolveT reg pkgs st').1
    ∧ exceptEquiv (resolveT reg pkgs st).2 (resolveT reg pkgs st').2 := by
  induction pkgs generalizing st st' with
  | nil => exact ⟨rfl, h⟩
  | cons p rest ih =>
    cases hm : p.manifest with
    | malformed err =>
      refine ⟨?_, ?_⟩
      · simp only [resolveT, hm]
      · simp only [resolveT, hm]
        show (err : String) = err
        rfl
    | missing =>
      simp only [resolveT, hm]
      exact ih (processPackage_equiv reg p h)
    | ok cfg =>
      simp only [resolveT, hm]
      have := ih (processPackage_equiv reg p h)
      exact ⟨by rw [this.1], this.2⟩

theorem pushMount_warnings (item : RegistryItem) (st : RState) (mp : String) :
    (pushMount item st mp).warnings = st.warnings := rfl

theorem foldl_warn_mono {α : Type} (f : RState → α → RState)
    (hf : ∀ (st : RState) (x : α) (w : String),
      w ∈ st.warnings → w ∈ (f st x).warnings) :
    ∀ (l : List α) (st : RState) (w : String),
      w ∈ st.warnings → w ∈ (l.foldl f st).warnings := by
  intro l
  induction l with
  | nil => intro st w h; exact h
  | cons x rest ih =>
    intro st w h
    exact ih (f st x) w (hf st x w h)

theorem processFeature_warn_mono (reg : Registry) (pfxs : List String)
    (pkgName baseSeg : String) (st : RState) (kv : String × String) (w : String)
    (h : w ∈ st.warnings) :
    w ∈ (processFeature reg pfxs pkgName baseSeg st kv).warnings := by
  unfold processFeature
  cases reg.lookup kv.1 with
  | none => exact List.mem_append_left _ h
  | some item =>
    exact foldl_warn_mono _
      (fun st cp w' h' => by rw [pushMount_warnings]; exact h') pfxs st w h

theorem processGroup_warn_mono (reg : Registry) (pfxs : List String) (pkgName : String)
    (st : RState) (grp : MountGroup) (w : String) (h : w ∈ st.warnings) :
    w ∈ (processGroup reg pfxs pkgName st grp).warnings := by
  unfold processGroup
  exact foldl_warn_mono _
    (fun st' kv w' h' =>
      processFeature_warn_mono reg pfxs pkgName (baseSegOf grp.baseRoute) st' kv w' h')
    grp.features st w h

theorem processPackage_warn_mono (reg : Registry) (st : RState) (p : Package)
    (w : String) (h : w ∈ st.warnings) :
    w ∈ (processPackage reg st p).warnings := by
  by_cases hne : mountGroupsOf p = []
  · rw [show processPackage reg st p = st from by unfold processPackage; rw [hne]]
    exact h
  · rw [processPackage_eqn reg st p hne]
    unfold processPackageWith
    exact foldl_warn_mono _
      (fun st' grp w' h' =>
        processGroup_warn_mono reg _ (p.name.getD "") st' grp w' h')
      (mountGroupsOf p) st w h

theorem resolveT_warn_mono (reg : Registry) (pkgs : List Package) (st : RState)
    (w : String) (h : w ∈ st.warnings) (stR : RState)
    (hok : (resolveT reg pkgs st).2 = Except.ok stR) : w ∈ stR.warnings := by
  induction pkgs generalizing st with
  | nil =>
    simp only [resolveT] at hok
    cases hok
    exact h
  | cons p rest ih =>
    cases hm : p.manifest with
    | malformed err =>
      simp only [resolveT, hm] at hok
      exact Except.noConfusion hok
    | missing =>
      simp only [resolveT, hm] at hok
      exact ih _ (processPackage_warn_mono reg st p w h) hok
    | ok cfg =>
      simp only [resolveT, hm] at hok
      exact ih _ (processPackage_warn_mono reg st p w h) hok

theorem processFeature_unknown (reg : Registry) (pfxs : List String)
    (pkgName baseSeg : String) (st : RState) (k s : String)
    (h : reg.lookup k = none) :
    processFeature reg pfxs pkgName baseSeg st (k, s)
      = { st with warnings := st.warnings ++ [unknownKeyWarning k pkgName] } := by
  unfold processFeature
  rw [h]

theorem processGroup_features_eqn (reg : Registry) (pfxs : List String) (pkgName : String)
    (st : RState) (n : String) (b : Option String) (fs : List (String × String)) :
    processGroup reg pfxs pkgName st ⟨n, b, fs⟩
      = fs.foldl (processFeature reg pfxs pkgName (baseSegOf b)) st := rfl

theorem processGroup_skip_unknown (reg : Registry) (pfxs : List String) (pkgName : String)
    (st : RState) (n : String) (b : Option String) (f1 f2 : List (String × String))
    (k s : String) (h : reg.lookup k = none) :
    StEquiv (processGroup reg pfxs pkgName st ⟨n, b, f1 ++ (k, s) :: f2⟩)
        (processGroup reg pfxs pkgName st ⟨n, b, f1 ++ f2⟩)
    ∧ unknownKeyWarning k pkgName
        ∈ (processGroup reg pfxs pkgName st ⟨n, b, f1 ++ (k, s) :: f2⟩).warnings := by
  rw [processGroup_features_eqn, processGroup_features_eqn]
  rw [List.foldl_append, List.foldl_append, List.foldl_cons]
  rw [processFeature_unknown reg pfxs pkgName (baseSegOf b) _ k s h]
  constructor
  · exact foldl_equiv _ (fun a b' kv hh =>
      processFeature_equiv reg pfxs pkgName (baseSegOf b) kv hh) f2 _ _ ⟨rfl, rfl⟩
  · exact foldl_warn_mono _
      (fun st' kv w' h' =>
        processFeature_warn_mono reg pfxs pkgName (baseSegOf b) st' kv w' h')
      f2 _ _ (by simp)

/-- The same package with one `(registryKey, slug)` feature entry of one
mount group removed. -/
def dropFeatureEntry (A : Package) (cfg : RoutesConfig) (g1 g2 : List MountGroup)
    (grp : MountGroup) (f1 f2 : List (String × String)) : Package :=
  { A with manifest := .ok { cfg with
      mountRoutes := some (g1 ++ { grp with features := f1 ++ f2 } :: g2) } }

theorem processPackage_skip_unknown (reg : Registry) (st : RState) (A : Package)
    (cfg : RoutesConfig) (g1 g2 : List MountGroup) (grp : MountGroup)
    (f1 f2 : List (String × String)) (k s : String)
    (hA : A.manifest = .ok cfg)
    (hmg : cfg.mountRoutes = some (g1 ++ grp :: g2))
    (hfeat : grp.features = f1 ++ (k, s) :: f2)
    (hunk : reg.lookup k = none) :
    StEquiv (processPackage reg st A)
        (processPackage reg st (dropFeatureEntry A cfg g1 g2 grp f1 f2))
    ∧ unknownKeyWarning k (A.name.getD "") ∈ (processPackage reg st A).warnings := by
  have hgA : mountGroupsOf A = g1 ++ grp :: g2 := by
    rw [show mountGroupsOf A = cfg.mountRoutes.getD [] from by unfold mountGroupsOf; rw [hA]]
    rw [hmg]
    rfl
  have hgA' : mountGroupsOf (dropFeatureEntry A cfg g1 g2 grp f1 f2)
      = g1 ++ { grp with features := f1 ++ f2 } :: g2 := rfl
  have hname : (dropFeatureEntry A cfg g1 g2 grp f1 f2).name = A.name := rfl
  have hne : mountGroupsOf A ≠ [] := by rw [hgA]; simp
  have hne' : mountGroupsOf (dropFeatureEntry A cfg g1 g2 grp f1 f2) ≠ [] := by
    rw [hgA']; simp
  rw [processPackage_eqn reg st A hne, processPackage_eqn reg st _ hne']
  rw [hname]
  unfold processPackageWith
  rw [hgA, hgA', hname]
  rw [List.foldl_append, List.foldl_append, List.foldl_cons, List.foldl_cons]
  obtain ⟨n, b, fs⟩ := grp
  simp only [MountGroup.mk.injEq] at hfeat ⊢
  subst hfeat
  constructor
  · refine foldl_equiv _
      (fun a b' g hh => processGroup_equiv reg _ (A.name.getD "") g hh) g2 _ _ ?_
    exact (processGroup_skip_unknown reg _ (A.name.getD "") _ n b f1 f2 k s hunk).1
  · refine foldl_warn_mono _
      (fun st' g w' h' => processGroup_warn_mono reg _ (A.name.getD "") st' g w' h')
      g2 _ _ ?_
    exact (processGroup_skip_unknown reg _ (A.name.getD "") _ n b f1 f2 k s hunk).2

/-- C6: a mount entry referencing an unknown registry key is skipped with
a non-fatal diagnostic: the resolution with the entry removed performs the
same actions and produces the same mounts and the same index; the
diagnostic for the unknown key appears among the warnings of the
completed run. -/
theorem c6_unknown_key_tolerance (reg : Registry) (st0 : RState)
    (pre post : List Package) (A : Package) (cfg : RoutesConfig)
    (g1 g2 : List MountGroup) (grp : MountGroup)
    (f1 f2 : List (String × String)) (k s : String)
    (hA : A.manifest = .ok cfg)
    (hmg : cfg.mountRoutes = some (g1 ++ grp :: g2))
    (hfeat : grp.features = f1 ++ (k, s) :: f2)
    (hunk : reg.lookup k = none) :
    (resolveT reg (pre ++ A :: post) st0).1
        = (resolveT reg (pre ++ dropFeatureEntry A cfg g1 g2 grp f1 f2 :: post) st0).1
    ∧ exceptEquiv (resolveT reg (pre ++ A :: post) st0).2
        (resolveT reg (pre ++ dropFeatureEntry A cfg g1 g2 grp f1 f2 :: post) st0).2
    ∧ (∀ stR, (resolveT reg (pre ++ A :: post) st0).2 = Except.ok stR →
        unknownKeyWarning k (A.name.getD "") ∈ stR.warnings) := by
  induction pre generalizing st0 with
  | nil =>
    have hA' : (dropFeatureEntry A cfg g1 g2 grp f1 f2).manifest
        = .ok { cfg with
            mountRoutes := some (g1 ++ { grp with features := f1 ++ f2 } :: g2) } := rfl
    have hpath : (dropFeatureEntry A cfg g1 g2 grp f1 f2).pkgJsonPath = A.pkgJsonPath := rfl
    simp only [List.nil_append, resolveT, hA, hA', hpath]
    have hskip := processPackage_skip_unknown reg st0 A cfg g1 g2 grp f1 f2 k s hA hmg hfeat hunk
    have hpost := resolveT_equiv reg post hskip.1
    refine ⟨by rw [hpost.1], hpost.2, ?_⟩
    intro stR hok
    exact resolveT_warn_mono reg post _ _ hskip.2 stR hok
  | cons q pre ih =>
    cases hm : q.manifest with
    | malformed err =>
      refine ⟨?_, ?_, ?_⟩
      · simp only [List.cons_append, resolveT, hm]
      · simp only [List.cons_append, resolveT, hm]
        show (err : String) = err
        rfl
      · intro stR hok
        simp only [List.cons_append, resolveT, hm] at hok
        exact Except.noConfusion hok
    | missing =>
      simp only [List.cons_append, resolveT, hm]
      have hih := ih (processPackage reg st0 q)
      exact ⟨hih.1, hih.2.1, hih.2.2⟩
    | ok qcfg =>
      simp only [List.cons_append, resolveT, hm]
      have hih := ih (processPackage reg st0 q)
      exact ⟨congrArg (fun l => Ev.manifestLoad q.pkgJsonPath :: l) hih.1,
        hih.2.1, hih.2.2⟩

/-- Witness for C6 at a concrete unknown-key mount entry. -/
theorem c6_unknown_key_tolerance_witness :
    (resolveT [] ([] ++
        { pkgJsonPath := "features/a/package.json", name := some "A",
          manifest := .ok { mountRoutes := some [
            { name := "G", baseRoute := some ".",
              features := [] ++ ("missing", "s") :: [] }] } } :: []) {}).1
        = (resolveT [] ([] ++ dropFeatureEntry
            { pkgJsonPath := "features/a/package.json", name := some "A",
              manifest := .ok { mountRoutes := some [
                { name := "G", baseRoute := some ".",
                  features := [] ++ ("missing", "s") :: [] }] } }
            { mountRoutes := some [
                { name := "G", baseRoute := some ".",
                  features := [] ++ ("missing", "s") :: [] }] }
            [] []
            { name := "G", baseRoute := some ".",
              features := [] ++ ("missing", "s") :: [] }
            [] [] :: []) {}).1
    ∧ exceptEquiv (resolveT [] ([] ++
        { pkgJsonPath := "features/a/package.json", name := some "A",
          manifest := .ok { mountRoutes := some [
            { name := "G", baseRoute := some ".",
              features := [] ++ ("missing", "s") :: [] }] } } :: []) {}).2
        (resolveT [] ([] ++ dropFeatureEntry
            { pkgJsonPath := "features/a/package.json", name := some "A",
              manifest := .ok { mountRoutes := some [
                { name := "G", baseRoute := some ".",
                  features := [] ++ ("missing", "s") :: [] }] } }
            { mountRoutes := some [
                { name := "G", baseRoute := some ".",
                  features := [] ++ ("missing", "s") :: [] }] }
            [] []
            { name := "G", baseRoute := some ".",
              features := [] ++ ("missing", "s") :: [] }
            [] [] :: []) {}).2
    ∧ (∀ stR, (resolveT [] ([] ++
          { pkgJsonPath := "features/a/package.json", name := some "A",
            manifest := .ok { mountRoutes := some [
              { name := "G", baseRoute := some ".",
                features := [] ++ ("missing", "s") :: [] }] } } :: []) {}).2
            = Except.ok stR →
        unknownKeyWarning "missing"
          (((some "A" : Option String)).getD "") ∈ stR.warnings) :=
  c6_unknown_key_tolerance [] {} [] []
    { pkgJsonPath := "features/a/package.json", name := some "A",
      manifest := .ok { mountRoutes := some [
        { name := "G", baseRoute := some ".",
          features := [] ++ ("missing", "s") :: [] }] } }
    { mountRoutes := some [
        { name := "G", baseRoute := some ".",
          features := [] ++ ("missing", "s") :: [] }] }
    [] []
    { name := "G", baseRoute := some ".", features := [] ++ ("missing", "s") :: [] }
    [] [] "missing" "s" rfl rfl rfl rfl

/-! ## Claims C5 and C10: order of the phases of one run -/

/-- Is this action a write of generated output? -/
def Ev.isWrite : Ev → Bool
  | .stubWrite _ => true
  | .declWrite => true
  | _ => false

/-- Is this action part of registry building or mount resolution
(a manifest load or a registry store)? -/
def Ev.isLoadOrStore : Ev → Bool
  | .manifestLoad _ => true
  | .registryStore _ => true
  | _ => false

theorem buildRegistryT_events_kinds (pkgs : List Package) (reg : Registry) :
    ∀ e ∈ (buildRegistryT pkgs reg).1, e.isLoadOrStore = true := by
  induction pkgs generalizing reg with
  | nil => intro e he; simp [buildRegistryT] at he
  | cons p rest ih =>
    intro e he
    cases hm : p.manifest with
    | malformed err =>
      simp only [buildRegistryT, hm] at he
      simp at he
      rw [he]
      rfl
    | missing =>
      simp only [buildRegistryT, hm] at he
      rcases List.mem_append.mp he with h | h
      · unfold pkgScanEvents at h
        rw [hm] at h
        simp only [List.nil_append] at h
        obtain ⟨kv, _, hkv⟩ := List.mem_map.mp h
        rw [← hkv]
        rfl
      · exact ih (scanPackage reg p) e h
    | ok cfg =>
      simp only [buildRegistryT, hm] at he
      rcases List.mem_append.mp he with h | h
      · unfold pkgScanEvents at h
        rw [hm] at h
        rcases List.mem_append.mp h with h2 | h2
        · simp at h2
          rw [h2]
          rfl
        · obtain ⟨kv, _, hkv⟩ := List.mem_map.mp h2
          rw [← hkv]
          rfl
      · exact ih (scanPackage reg p) e h

theorem resolveT_events_kinds (reg : Registry) (pkgs : List Package) (st : RState) :
    ∀ e ∈ (resolveT reg pkgs st).1, ∃ q, e = Ev.manifestLoad q := by
  induction pkgs generalizing st with
  | nil => intro e he; simp [resolveT] at he
  | cons p rest ih =>
    intro e he
    cases hm : p.manifest with
    | malformed err =>
      simp only [resolveT, hm] at he
      simp at he
      exact ⟨p.pkgJsonPath, he⟩
    | missing =>
      simp only [resolveT, hm] at he
      exact ih (processPackage reg st p) e he
    | ok cfg =>
      simp only [resolveT, hm] at he
      rcases List.mem_cons.mp he with h | h
      · exact ⟨p.pkgJsonPath, h⟩
      · exact ih (processPackage reg st p) e h

/-- Counterexample to C5 as stated: the recursive deletion of the output
root happens before any registry-build action — a manifest load follows
the wipe in the trace of a concrete run, so the output root is deleted
before registry build and mount resolution have completed. -/
theorem c5_counterexample :
    ∃ i j : Nat, i < j
      ∧ (mainRun
          [{ pkgJsonPath := "features/a/package.json", name := some "a",
             manifest := .ok {
               exposeRoutes := some [{ name := "a-root" }],
               mountRoutes := some [
                 { name := "G", baseRoute := some ".", features := [("a-root", "a")] }] },
             hasApp := true, appDirs := [(".", ["page.tsx"])] }] []).trace.get? i
          = some Ev.wipe
      ∧ (mainRun
          [{ pkgJsonPath := "features/a/package.json", name := some "a",
             manifest := .ok {
               exposeRoutes := some [{ name := "a-root" }],
               mountRoutes := some [
                 { name := "G", baseRoute := some ".", features := [("a-root", "a")] }] },
             hasApp := true, appDirs := [(".", ["page.tsx"])] }] []).trace.get? j
          = some (Ev.manifestLoad "features/a/package.json") :=
  ⟨0, 1, by decide, by decide, by decide⟩

/-- C5 as amended: one generation pass performs, strictly in sequence,
the full output wipe first, then registry build, then mount resolution,
then stub emission, then declaration emission: its trace is the wipe
followed by the registry-build actions, the resolution actions, the stub
writes, and the declaration write. -/
theorem c5_actual_phase_order (pkgs : List Package) (fs : FS) (reg : Registry)
    (st : RState) (evB evR : List Ev)
    (hB : buildRegistryT pkgs [] = (evB, Except.ok reg))
    (hR : resolveT reg (sortedPkgs pkgs) {} = (evR, Except.ok st)) :
    (mainRun pkgs fs).trace
      = Ev.wipe :: (evB ++ evR
          ++ (stubWrites st.mounts).map (fun pc => Ev.stubWrite pc.1) ++ [Ev.declWrite])
    ∧ (∀ e ∈ evB, e.isLoadOrStore = true)
    ∧ (∀ e ∈ evR, ∃ q, e = Ev.manifestLoad q) := by
  refine ⟨?_, ?_, ?_⟩
  · show (mainRun pkgs fs).trace = _
    unfold mainRun
    rw [hB]
    dsimp only
    rw [hR]
  · intro e he
    have := buildRegistryT_events_kinds pkgs []
    rw [hB] at this
    exact this e he
  · intro e he
    have := resolveT_events_kinds reg (sortedPkgs pkgs) {}
    rw [hR] at this
    exact this e he

/-- Witness for the amended C5 at a concrete one-package run. -/
theorem c5_actual_phase_order_witness :
    (mainRun
        [{ pkgJsonPath := "features/a/package.json", name := some "a",
           manifest := .ok {
             exposeRoutes := some [{ name := "a-root" }],
             mountRoutes := some [
               { name := "G", baseRoute := some ".", features := [("a-root", "a")] }] },
           hasApp := true, appDirs := [(".", ["page.tsx"])] }] []).trace
      = Ev.wipe :: ([Ev.manifestLoad "features/a/package.json", Ev.registryStore "a-root"]
          ++ [Ev.manifestLoad "features/a/package.json"]
          ++ (stubWrites [⟨"a", ["page.tsx"], "a"⟩]).map (fun pc => Ev.stubWrite pc.1)
          ++ [Ev.declWrite])
    ∧ (∀ e ∈ [Ev.manifestLoad "features/a/package.json", Ev.registryStore "a-root"],
        e.isLoadOrStore = true)
    ∧ (∀ e ∈ [Ev.manifestLoad "features/a/package.json"], ∃ q, e = Ev.manifestLoad q) :=
  c5_actual_phase_order
    [{ pkgJsonPath := "features/a/package.json", name := some "a",
       manifest := .ok {
         exposeRoutes := some [{ name := "a-root" }],
         mountRoutes := some [
           { name := "G", baseRoute := some ".", features := [("a-root", "a")] }] },
       hasApp := true, appDirs := [(".", ["page.tsx"])] }] []
    [("a-root", { srcPkg := "a", internalPath := ".", routeFiles := ["page.tsx"] })]
    { mounts := [⟨"a", ["page.tsx"], "a"⟩], index := [("a", ["a"])], warnings := [] }
    [Ev.manifestLoad "features/a/package.json", Ev.registryStore "a-root"]
    [Ev.manifestLoad "features/a/package.json"]
    rfl rfl

theorem buildRegistryT_error_of_malformed (pkgs : List Package) (reg : Registry)
    (h : ∃ p ∈ pkgs, p.manifest.isMalformed = true) :
    ∃ evB err, buildRegistryT pkgs reg = (evB, Except.error err) := by
  induction pkgs generalizing reg with
  | nil => simp at h
  | cons p rest ih =>
    cases hm : p.manifest with
    | malformed err =>
      refine ⟨[Ev.manifestLoad p.pkgJsonPath], err, ?_⟩
      simp only [buildRegistryT, hm]
    | missing =>
      have hrest : ∃ q ∈ rest, q.manifest.isMalformed = true := by
        obtain ⟨q, hq, hqm⟩ := h
        rcases List.mem_cons.mp hq with he | he
        · subst he; rw [hm] at hqm; simp [Manifest.isMalformed] at hqm
        · exact ⟨q, he, hqm⟩
      obtain ⟨evB, err, hB⟩ := ih (scanPackage reg p) hrest
      refine ⟨pkgScanEvents p ++ evB, err, ?_⟩
      simp only [buildRegistryT, hm, hB]
    | ok cfg =>
      have hrest : ∃ q ∈ rest, q.manifest.isMalformed = true := by
        obtain ⟨q, hq, hqm⟩ := h
        rcases List.mem_cons.mp hq with he | he
        · subst he; rw [hm] at hqm; simp [Manifest.isMalformed] at hqm
        · exact ⟨q, he, hqm⟩
      obtain ⟨evB, err, hB⟩ := ih (scanPackage reg p) hrest
      refine ⟨pkgScanEvents p ++ evB, err, ?_⟩
      simp only [buildRegistryT, hm, hB]

/-- C10: when any manifest is malformed, the run aborts with an error
while the recursive deletion of the output root has already happened as
the first action of the run (before any manifest was loaded): nothing is
left under the output root, nothing was regenerated (no write action in
the trace), and files outside the output root are untouched. -/
theorem c10_wipe_first_not_atomic (pkgs : List Package) (fs : FS)
    (h : ∃ p ∈ pkgs, p.manifest.isMalformed = true) :
    (∃ err, (mainRun pkgs fs).result = Except.error err)
    ∧ (mainRun pkgs fs).fs.filter (fun en => isUnder GENERATED_ROOT en.1) = []
    ∧ (mainRun pkgs fs).fs.filter (fun en => !isUnder GENERATED_ROOT en.1)
        = fs.filter (fun en => !isUnder GENERATED_ROOT en.1)
    ∧ (mainRun pkgs fs).trace.head? = some Ev.wipe
    ∧ (mainRun pkgs fs).trace.filter (fun e => e.isWrite) = [] := by
  obtain ⟨evB, err, hB⟩ := buildRegistryT_error_of_malformed pkgs [] h
  have hkinds := buildRegistryT_events_kinds pkgs []
  rw [hB] at hkinds
  unfold mainRun
  rw [hB]
  refine ⟨⟨err, rfl⟩, ?_, ?_, rfl, ?_⟩
  · unfold fsWipe
    rw [List.filter_filter]
    apply List.filter_eq_nil_iff.mpr
    intro a _
    simp
  · unfold fsWipe
    rw [List.filter_filter]
    simp only [Bool.and_self]
  · rw [show List.filter (fun e => e.isWrite) (Ev.wipe :: evB)
        = List.filter (fun e => e.isWrite) evB from by rw [List.filter_cons]; rfl]
    apply List.filter_eq_nil_iff.mpr
    intro e he
    have := hkinds e he
    cases e with
    | wipe => simp [Ev.isWrite]
    | manifestLoad q => simp [Ev.isWrite]
    | registryStore key => simp [Ev.isWrite]
    | stubWrite pth => simp [Ev.isLoadOrStore] at this
    | declWrite => simp [Ev.isLoadOrStore] at this

/-- Witness for C10: one malformed manifest destroys the previously
generated output and regenerates nothing. -/
theorem c10_wipe_first_not_atomic_witness :
    (∃ err, (mainRun
        [{ pkgJsonPath := "features/bad/package.json", name := some "bad",
           manifest := .malformed "SyntaxError" }]
        [("apps/web/app/(feature-routes)/old/page.tsx", "old stub"),
         ("README.md", "keep")]).result = Except.error err)
    ∧ (mainRun
        [{ pkgJsonPath := "features/bad/package.json", name := some "bad",
           manifest := .malformed "SyntaxError" }]
        [("apps/web/app/(feature-routes)/old/page.tsx", "old stub"),
         ("README.md", "keep")]).fs.filter (fun en => isUnder GENERATED_ROOT en.1) = []
    ∧ (mainRun
        [{ pkgJsonPath := "features/bad/package.json", name := some "bad",
           manifest := .malformed "SyntaxError" }]
        [("apps/web/app/(feature-routes)/old/page.tsx", "old stub"),
         ("README.md", "keep")]).fs.filter (fun en => !isUnder GENERATED_ROOT en.1)
        = [("apps/web/app/(feature-routes)/old/page.tsx", "old stub"),
           ("README.md", "keep")].filter (fun en => !isUnder GENERATED_ROOT en.1)
    ∧ (mainRun
        [{ pkgJsonPath := "features/bad/package.json", name := some "bad",
           manifest := .malformed "SyntaxError" }]
        [("apps/web/app/(feature-routes)/old/page.tsx", "old stub"),
         ("README.md", "keep")]).trace.head? = some Ev.wipe
    ∧ (mainRun
        [{ pkgJsonPath := "features/bad/package.json", name := some "bad",
           manifest := .malformed "SyntaxError" }]
        [("apps/web/app/(feature-routes)/old/page.tsx", "old stub"),
         ("README.md", "keep")]).trace.filter (fun e => e.isWrite) = [] :=
  c10_wipe_first_not_atomic
    [{ pkgJsonPath := "features/bad/package.json", name := some "bad",
       manifest := .malformed "SyntaxError" }]
    [("apps/web/app/(feature-routes)/old/page.tsx", "old stub"),
     ("README.md", "keep")]
    (by decide)

/-! ## Claim C8: elision of "." and empty segments -/

theorem posixJoin2_empty_right (a : String) (ha : a ≠ "") :
    posixJoin2 a "" = posixNormalize a := by
  unfold posixJoin2
  rw [if_neg ha, if_pos rfl]

theorem posixJoin2_empty_left (b : String) (hb : b ≠ "") :
    posixJoin2 "" b = posixNormalize b := by
  unfold posixJoin2
  rw [if_pos rfl, if_neg hb]

theorem posixJoin2_eval (a b : String) (ha : a ≠ "") (hb : b ≠ "") :
    posixJoin2 a b = posixNormalize (a ++ "/" ++ b) := by
  unfold posixJoin2
  rw [if_neg ha, if_neg hb]

theorem posixJoin2_dot_right (a : String) (ha : a ≠ "")
    (ht : a.data.getLast? ≠ some '/') :
    posixJoin2 a "." = posixJoin2 a "" := by
  rw [posixJoin2_eval a "." ha (by decide), posixJoin2_empty_right a ha]
  exact posixNormalize_append_dot a ha ht

theorem posixJoin2_dotslash_left (r : String) (hr : r ≠ "")
    (hh : r.data.head? ≠ some '/') :
    posixJoin2 "." r = posixJoin2 "" r := by
  rw [posixJoin2_eval "." r (by decide) hr, posixJoin2_empty_left r hr]
  exact posixNormalize_dotslash r hr hh

theorem mountPfxCalc_eqn (cp bs slug : String) :
    mountPfxCalc cp bs slug
      = if cp ≠ "" then posixJoin2 cp (if bs ≠ "" then posixJoin2 bs slug else slug)
        else if bs ≠ "" then posixJoin2 bs slug else slug := rfl

theorem mountPfxCalc_dot_slug (cp bs : String)
    (hcp : cp.data.getLast? ≠ some '/') (hbs : bs.data.getLast? ≠ some '/')
    (h : cp ≠ "" ∨ bs ≠ "") :
    mountPfxCalc cp bs "." = mountPfxCalc cp bs "" := by
  rw [mountPfxCalc_eqn, mountPfxCalc_eqn]
  by_cases h1 : cp = ""
  · subst h1
    rcases h with h | h
    · exact absurd rfl h
    · rw [if_neg (show ¬(("" : String) ≠ "") from fun hc => hc rfl)]
      rw [if_neg (show ¬(("" : String) ≠ "") from fun hc => hc rfl)]
      rw [if_pos h, if_pos h]
      exact posixJoin2_dot_right bs h hbs
  · rw [if_pos h1, if_pos h1]
    by_cases h2 : bs = ""
    · subst h2
      rw [if_neg (show ¬(("" : String) ≠ "") from fun hc => hc rfl)]
      rw [if_neg (show ¬(("" : String) ≠ "") from fun hc => hc rfl)]
      exact posixJoin2_dot_right cp h1 hcp
    · rw [if_pos h2, if_pos h2]
      rw [posixJoin2_dot_right bs h2 hbs]

theorem stubDestRel_dot (r : String) (hr : r ≠ "") (hh : r.data.head? ≠ some '/') :
    stubDestRel "." r = stubDestRel "" r := by
  unfold stubDestRel
  rw [posixJoin2_dotslash_left r hr hh]

/-- Counterexample to C8 as stated: when the consumer prefix and the base
segment are both empty, a slug of `"."` yields the literal mount prefix
`"."`, which is not identical to the `""` obtained by omitting the
segment (though the generated file paths coincide). -/
theorem c8_counterexample :
    ((resolveT [("k", ⟨"prov", ".", ["page.tsx"], none⟩)]
        [{ pkgJsonPath := "apps/web/package.json", name := some "web",
           manifest := .ok { mountRoutes := some [
             { name := "G", baseRoute := some ".", features := [("k", ".")] }] } }]
        {}).2.toOption.map (fun st => st.mounts.map (fun cm => cm.mountPfx)))
      = some ["."]
    ∧ ((resolveT [("k", ⟨"prov", ".", ["page.tsx"], none⟩)]
        [{ pkgJsonPath := "apps/web/package.json", name := some "web",
           manifest := .ok { mountRoutes := some [
             { name := "G", baseRoute := some ".", features := [("k", "")] }] } }]
        {}).2.toOption.map (fun st => st.mounts.map (fun cm => cm.mountPfx)))
      = some [""]
    ∧ ("." : String) ≠ "" := ⟨by decide, by decide, by decide⟩

/-- C8 as amended: a baseRoute of `"."` or `""` never contributes a
segment; a slug of `"."` or `""` contributes no segment to the mount
prefix whenever the consumer prefix or the base segment is nonempty
(given no trailing separators); in the remaining corner the mount prefix
is the literal slug string (`"."` instead of `""`), but every generated
file path under it is still identical to the one with the segment
omitted. -/
theorem c8_segment_elision (cp bs r : String)
    (hcp : cp.data.getLast? ≠ some '/') (hbs : bs.data.getLast? ≠ some '/')
    (hne : cp ≠ "" ∨ bs ≠ "")
    (hr : r ≠ "") (hrh : r.data.head? ≠ some '/') :
    baseSegOf (some ".") = baseSegOf none
    ∧ baseSegOf (some "") = baseSegOf none
    ∧ mountPfxCalc cp bs "." = mountPfxCalc cp bs ""
    ∧ mountPfxCalc "" "" "." = "."
    ∧ stubDestRel (mountPfxCalc "" "" ".") r = stubDestRel (mountPfxCalc "" "" "") r :=
  ⟨by decide, by decide, mountPfxCalc_dot_slug cp bs hcp hbs hne, rfl,
    stubDestRel_dot r hr hrh⟩

/-- Witness for the amended C8 at concrete segments. -/
theorem c8_segment_elision_witness :
    baseSegOf (some ".") = baseSegOf none
    ∧ baseSegOf (some "") = baseSegOf none
    ∧ mountPfxCalc "host" "base" "." = mountPfxCalc "host" "base" ""
    ∧ mountPfxCalc "" "" "." = "."
    ∧ stubDestRel (mountPfxCalc "" "" ".") "page.tsx"
        = stubDestRel (mountPfxCalc "" "" "") "page.tsx" :=
  c8_segment_elision "host" "base" "page.tsx" (by decide) (by decide)
    (Or.inl (by decide)) (by decide) (by decide)

/-! ## Claim C9: idempotence of a full generation run -/

theorem lookup_fsWrite (fs : FS) (q c p : String) :
    (fsWrite fs q c).lookup p = if p = q then some c else fs.lookup p := by
  by_cases h : p = q
  · subst h
    rw [if_pos rfl]
    exact lookup_assocSet_self fs p c
  · rw [if_neg h]
    exact lookup_assocSet_ne fs q p c h

theorem lookup_foldl_fsWrite (ws : List (String × String)) (fs : FS) (p : String) :
    ((ws.foldl (fun fs pc => fsWrite fs pc.1 pc.2) fs).lookup p)
      = (lastWrite ws p).or (fs.lookup p) := by
  unfold fsWrite
  exact lookup_foldl_assocSet ws fs p

theorem lookup_fsWipe (fs : FS) (root p : String) :
    (fsWipe fs root).lookup p = if isUnder root p then none else fs.lookup p := by
  unfold fsWipe
  rw [lookup_filter_key fs (fun s => !isUnder root s) p]
  by_cases h : isUnder root p
  · rw [if_pos h, if_neg (by simp [h])]
  · rw [if_neg h, if_pos (by simp [h])]

/-- Running `mainRun` a second time over the SAME `Package` list (that is,
with the file-system query answers unchanged) produces pointwise equal
lookups, including the declaration artifact. -/
theorem mainRun_lookup_idempotent (pkgs : List Package) (fs : FS) (p : String) :
    ((mainRun pkgs (mainRun pkgs fs).fs).fs.lookup p) = ((mainRun pkgs fs).fs.lookup p) := by
  rcases hB : buildRegistryT pkgs [] with ⟨evB, res⟩
  cases res with
  | error e =>
    show ((mainRun pkgs (mainRun pkgs fs).fs).fs.lookup p) = _
    unfold mainRun
    rw [hB]
    dsimp only
    rw [lookup_fsWipe, lookup_fsWipe]
    by_cases h : isUnder GENERATED_ROOT p
    · rw [if_pos h, if_pos h]
    · rw [if_neg h, if_neg h]
  | ok reg =>
    rcases hR : resolveT reg (sortedPkgs pkgs) {} with ⟨evR, res2⟩
    cases res2 with
    | error e =>
      show ((mainRun pkgs (mainRun pkgs fs).fs).fs.lookup p) = _
      unfold mainRun
      rw [hB]
      dsimp only
      rw [hR]
      dsimp only
      rw [lookup_fsWipe, lookup_fsWipe]
      by_cases h : isUnder GENERATED_ROOT p
      · rw [if_pos h, if_pos h]
      · rw [if_neg h, if_neg h]
    | ok st =>
      show ((mainRun pkgs (mainRun pkgs fs).fs).fs.lookup p) = _
      unfold mainRun
      rw [hB]
      dsimp only
      rw [hR]
      dsimp only
      rw [lookup_fsWrite, lookup_fsWrite]
      by_cases hd : p = DECLARATION_PATH
      · rw [if_pos hd, if_pos hd]
      · rw [if_neg hd, if_neg hd]
        rw [lookup_foldl_fsWrite, lookup_foldl_fsWrite]
        cases hl : lastWrite (stubWrites st.mounts) p with
        | some c => rfl
        | none =>
          show Option.or none _ = Option.or none _
          rw [Option.none_or, Option.none_or]
          rw [lookup_fsWipe, lookup_fsWipe]
          by_cases h : isUnder GENERATED_ROOT p
          · rw [if_pos h, if_pos h]
          · rw [if_neg h, if_neg h]
            rw [lookup_fsWrite, if_neg hd]
            rw [lookup_foldl_fsWrite, hl, Option.none_or]
            rw [lookup_fsWipe, if_neg h]

/-! ## The two-run model: file-system queries re-evaluated per run

`Package` carries the answers of the generator's file-system queries
(`exists(appDir)`, the `fg` glob) as data.  Within one run this is exact:
after the initial wipe nothing the run does changes those answers.  Across
two runs it is not: `fs.mkdir(path.dirname(destPath), { recursive: true })`
in `writeStub` creates every parent of a stub path — including
`apps/web/app`, the host's `app` directory, when it did not exist — and
`fs.rm(GENERATED_ROOT, ...)` removes only the generated root itself, so the
created parents survive into the next run.  `World` therefore extends the
file list with the set of existing directories, and `requery` re-derives a
`Package` from the run-invariant sources against the current world. -/

/-- The run-invariant sources of one discovered package: its
`package.json` path and name and its manifest, read from files the
generator never writes.  The file-system query results (`hasApp`,
`appDirs`) are re-derived per run by `requery`. -/
structure PackageSrc where
  pkgJsonPath : String
  name : Option String := none
  manifest : Manifest := .missing
deriving DecidableEq, Repr

/-- A file system together with the set of existing directories: the
generator's `exists()` queries test directories, and its `fs.mkdir` calls
create them. -/
structure World where
  files : FS
  dirs : List String
deriving DecidableEq, Repr

/-- `path.dirname` for forward-slash paths. -/
def dirnameOf (p : String) : String :=
  match (splitSlash p.data).dropLast with
  | [] => "."
  | segs => String.mk (joinSegs segs)

/-- The directories `fs.mkdir(path.dirname(p), { recursive: true })`
guarantees to exist before `p` is written: every cumulative prefix of the
parent of `p`. -/
def dirChain (p : String) : List String :=
  let segs := (splitSlash p.data).dropLast
  (List.range segs.length).map (fun i => String.mk (joinSegs (segs.take (i + 1))))

/-- The directories one traced action creates: `writeStub` runs
`fs.mkdir(path.dirname(destPath), { recursive: true })` before each stub
write, and the declaration write is preceded by
`fs.mkdir(path.dirname(DECLARATION_PATH), { recursive: true })`. -/
def evDirs : Ev → List String
  | .stubWrite p => dirChain p
  | .declWrite => dirChain DECLARATION_PATH
  | _ => []

/-- `fs.rm(GENERATED_ROOT, { recursive: true, force: true })` on a world:
files and directories at or under the generated root are removed. -/
def wipeWorld (w : World) : World :=
  ⟨fsWipe w.files GENERATED_ROOT, w.dirs.filter (fun d => !isUnder GENERATED_ROOT d)⟩

/-- The route-file basenames of the glob pattern
`**/{page,layout,loading,error,head,not-found,template,route}.@(js|jsx|ts|tsx)`. -/
def routeBaseNames : List String :=
  ["page", "layout", "loading", "error", "head", "not-found", "template", "route"]

/-- The extensions of the glob pattern. -/
def routeFileExts : List String := ["js", "jsx", "ts", "tsx"]

/-- Does a basename match the glob pattern? -/
def isRouteFileName (fname : String) : Bool :=
  routeBaseNames.any (fun b => routeFileExts.any (fun e => fname = b ++ "." ++ e))

/-- The final path component of a forward-slash path. -/
def basenameOf (rel : String) : String :=
  String.mk ((rel.data.reverse.takeWhile (fun c => c ≠ '/')).reverse)

/-- `fg(globPattern, { cwd: root })`: the files under `root` whose basename
is a recognised route file, as paths relative to `root`, in file-list
order. -/
def globRouteFiles (files : FS) (root : String) : List String :=
  files.filterMap (fun en =>
    if (root ++ "/").data.isPrefixOf en.1.data then
      let rel := String.mk (en.1.data.drop (root.data.length + 1))
      if isRouteFileName (basenameOf rel) then some rel else none
    else none)

/-- The internal paths named by the manifest's expose entries
(`entry.internalPath ?? '.'` for each entry of `exposeRoutes`). -/
def internalPathsOf (src : PackageSrc) : List String :=
  match src.manifest with
  | .ok cfg => (cfg.exposeRoutes.getD []).map (fun e => e.internalPath.getD ".")
  | _ => []

/-- Re-evaluate the generator's file-system queries for one package against
the current world: `hasApp` is `exists(path.join(pkgDir, 'app'))` with
`pkgDir = path.dirname(pkgJsonPath)`, and each exposed internal path whose
directory exists contributes the glob result under it. -/
def requery (w : World) (src : PackageSrc) : Package :=
  { pkgJsonPath := src.pkgJsonPath, name := src.name, manifest := src.manifest,
    hasApp := posixJoin2 (dirnameOf src.pkgJsonPath) "app" ∈ w.dirs,
    appDirs := (internalPathsOf src).filterMap (fun ip =>
      if posixJoin2 (posixJoin2 (dirnameOf src.pkgJsonPath) "app") ip ∈ w.dirs then
        some (ip, globRouteFiles w.files
          (posixJoin2 (posixJoin2 (dirnameOf src.pkgJsonPath) "app") ip))
      else none) }

/-- The packages one run works with: the queries are evaluated after the
initial wipe, since `fs.rm` of the generated root is the first statement
of `main`. -/
def runPkgs (srcs : List PackageSrc) (w : World) : List Package :=
  srcs.map (requery (wipeWorld w))

/-- One full generation run over a world: wipe, re-evaluate the queries,
run the pipeline (whose own initial wipe is then a no-op on the already
wiped file list), and record the directories the `mkdir` calls create. -/
def runWorld (srcs : List PackageSrc) (w : World) : World :=
  ⟨(mainRun (runPkgs srcs w) (wipeWorld w).files).fs,
   (wipeWorld w).dirs
     ++ (mainRun (runPkgs srcs w) (wipeWorld w).files).trace.flatMap evDirs⟩

theorem fsWipe_fsWipe (fs : FS) (root : String) :
    fsWipe (fsWipe fs root) root = fsWipe fs root := by
  unfold fsWipe
  rw [List.filter_filter]
  simp only [Bool.and_self]

theorem mainRun_fs_wipe (pkgs : List Package) (fs : FS) :
    (mainRun pkgs (fsWipe fs GENERATED_ROOT)).fs = (mainRun pkgs fs).fs := by
  unfold mainRun
  rw [fsWipe_fsWipe]

/-- A provider package source: `features/docs` exposes its `app` root,
which holds one route file. -/
def twoRunDocs : PackageSrc :=
  { pkgJsonPath := "features/docs/package.json", name := some "docs",
    manifest := .ok { exposeRoutes := some [
      { name := "docs-root", internalPath := some "." }] } }

/-- The host package source: `apps/web` exposes its own `app` root and
mounts the provider. -/
def twoRunWeb : PackageSrc :=
  { pkgJsonPath := "apps/web/package.json", name := some "web",
    manifest := .ok {
      exposeRoutes := some [{ name := "web-root", internalPath := some "." }],
      mountRoutes := some [
        { name := "G", baseRoute := some ".", features := [("docs-root", "docs")] }] } }

/-- The two package sources of the two-run scenario, in discovery order. -/
def twoRunSrcs : List PackageSrc := [twoRunDocs, twoRunWeb]

/-- Initial world of the counterexample: the provider's `app` directory
exists with one route file; the host's `apps/web/app` directory does NOT
exist yet. -/
def twoRunWorld0 : World :=
  ⟨[("features/docs/app/page.tsx", "x")],
   ["features", "features/docs", "features/docs/app", "apps", "apps/web"]⟩

/-- A world in which every queried directory — including the host's
`apps/web/app` — already exists, so the two runs' query answers agree. -/
def twoRunStable : World :=
  ⟨[("features/docs/app/page.tsx", "x")],
   ["features", "features/docs", "features/docs/app", "apps", "apps/web",
    "apps/web/app"]⟩

set_option maxRecDepth 8000

/-- Counterexample to C9 as stated: two consecutive runs over the same
package sources, with unchanged manifests and unchanged source files, do
NOT produce byte-identical output trees.  The host's `app` directory is
absent at first; both runs complete successfully; the first run's `mkdir`
creates `apps/web/app` (it survives the wipe), so the second run's
re-evaluated queries register the host's expose entry and the declaration
artifact differs byte-wise between the runs. -/
theorem c9_counterexample :
    "apps/web/app" ∉ twoRunWorld0.dirs
    ∧ "apps/web/app" ∈ (runWorld twoRunSrcs twoRunWorld0).dirs
    ∧ (mainRun (runPkgs twoRunSrcs twoRunWorld0)
        (wipeWorld twoRunWorld0).files).result.toOption = some ()
    ∧ (mainRun (runPkgs twoRunSrcs (runWorld twoRunSrcs twoRunWorld0))
        (wipeWorld (runWorld twoRunSrcs twoRunWorld0)).files).result.toOption = some ()
    ∧ (runWorld twoRunSrcs (runWorld twoRunSrcs twoRunWorld0)).files.lookup DECLARATION_PATH
        ≠ (runWorld twoRunSrcs twoRunWorld0).files.lookup DECLARATION_PATH := by
  refine ⟨by decide, by decide, by decide, by decide, by decide⟩

/-- C9 as amended: a second generation run over the same package sources is
idempotent PROVIDED the generator's file-system queries answer the same in
both runs — in particular whenever every directory the first run's `mkdir`
calls create (such as the host's `app` directory) already existed.  Under
that proviso the second run's tree has pointwise equal lookups, including
the declaration artifact.  Without it the property fails: the first run's
`mkdir` can create the host's previously missing `app` directory, which
the wipe does not remove, so the second run registers the host's expose
entry and the declaration artifact differs. -/
theorem c9_two_run_idempotent (srcs : List PackageSrc) (w : World) (p : String)
    (hq : runPkgs srcs (runWorld srcs w) = runPkgs srcs w) :
    (runWorld srcs (runWorld srcs w)).files.lookup p
      = (runWorld srcs w).files.lookup p := by
  show ((mainRun (runPkgs srcs (runWorld srcs w))
      (wipeWorld (runWorld srcs w)).files).fs.lookup p) = _
  rw [hq]
  show ((mainRun (runPkgs srcs w)
      (fsWipe (runWorld srcs w).files GENERATED_ROOT)).fs.lookup p) = _
  rw [mainRun_fs_wipe]
  exact mainRun_lookup_idempotent (runPkgs srcs w) (wipeWorld w).files p

/-- Witness for the amended C9 at the concrete two-package scenario with
the host's `app` directory pre-existing: the re-evaluated queries agree
across the runs, and the declaration artifact is unchanged. -/
theorem c9_two_run_idempotent_witness :
    runPkgs twoRunSrcs (runWorld twoRunSrcs twoRunStable)
        = runPkgs twoRunSrcs twoRunStable
    ∧ (runWorld twoRunSrcs (runWorld twoRunSrcs twoRunStable)).files.lookup DECLARATION_PATH
        = (runWorld twoRunSrcs twoRunStable).files.lookup DECLARATION_PATH :=
  ⟨by decide, c9_two_run_idempotent twoRunSrcs twoRunStable DECLARATION_PATH (by decide)⟩

end RouteStubs
